import Mathlib

set_option maxHeartbeats 1000000

/-!
Verification of the Dots & Boxes core rules engine and AI move selection.

The definitions below are a shallow embedding of the repository's shared
game logic (gameLogic.ts) and of the client-side AI strategies (useAI).
Machine numbers are modelled as Int/Nat (all the embedded code paths
perform integer arithmetic only); the JavaScript string keys produced by
lineToKey are an injective encoding of the normalized 4-tuple of
coordinates, so the normalized tuple itself is used as the set-membership
key.  Fallible operations return Option.
-/

namespace DotsBoxes

/-- A line [x1, y1, x2, y2] between two dots, as in the source's Line type
(a length-4 integer array).  Malformed arrays (length other than 4,
non-integer entries) are not representable in this embedding; they are
rejected by isValidLine in the source before any other processing. -/
abbrev Line := Int × Int × Int × Int

/-- gameLogic.ts normalizeLine: order the two endpoints so the smaller
point (row-major) comes first. -/
def normalizeLine (l : Line) : Line :=
  let (x1, y1, x2, y2) := l
  if y1 < y2 ∨ (y1 = y2 ∧ x1 < x2) then (x1, y1, x2, y2) else (x2, y2, x1, y1)

/-- gameLogic.ts lineToKey: serialize a line to its lookup key, always
normalizing first.  The string encoding is injective on 4-tuples, so the
normalized tuple itself is the key here. -/
def lineToKey (l : Line) : Line := normalizeLine l

/-- gameLogic.ts isValidLine: both endpoints within [0, gridSize) and
exactly one unit apart along exactly one axis. -/
def isValidLine (l : Line) (gridSize : Int) : Bool :=
  let (x1, y1, x2, y2) := l
  if x1 < 0 ∨ x1 ≥ gridSize ∨ y1 < 0 ∨ y1 ≥ gridSize then false
  else if x2 < 0 ∨ x2 ≥ gridSize ∨ y2 < 0 ∨ y2 ≥ gridSize then false
  else
    let dx := (x2 - x1).natAbs
    let dy := (y2 - y1).natAbs
    decide ((dx = 1 ∧ dy = 0) ∨ (dx = 0 ∧ dy = 1))

/-- shared constants: MIN_GRID_SIZE = 3, MAX_GRID_SIZE = 10. -/
def isValidGridSize (gridSize : Int) : Bool :=
  decide (3 ≤ gridSize ∧ gridSize ≤ 10)

/-- shared constants: MIN_PLAYERS = 2, MAX_PLAYERS = 4. -/
def isValidPlayerCount (count : Nat) : Bool :=
  decide (2 ≤ count ∧ count ≤ 4)

/-- gameLogic.ts isBoxComplete: all 4 sides of the box at (x, y) present. -/
def isBoxComplete (x y : Int) (lineSet : List Line) : Bool :=
  lineSet.contains (lineToKey (x, y, x + 1, y)) &&
  lineSet.contains (lineToKey (x, y + 1, x + 1, y + 1)) &&
  lineSet.contains (lineToKey (x, y, x, y + 1)) &&
  lineSet.contains (lineToKey (x + 1, y, x + 1, y + 1))

/-- A box is identified by the coordinate of its top-left dot, as in the
source's BoxKey "x,y" (again an injective string encoding of the pair). -/
abbrev Box := Int × Int

/-- gameLogic.ts findCompletedBoxes: after placing a line, the boxes
adjacent to it that are complete in the post-insertion line set, in
source push order (vertical: left then right; horizontal: above then
below). -/
def findCompletedBoxes (line : Line) (gridSize : Int) (lineSet : List Line) : List Box :=
  let (x1, y1, x2, y2) := normalizeLine line
  let isHorizontal := y1 = y2
  let isVertical := x1 = x2
  let vert : List Box :=
    if isVertical then
      let topY := min y1 y2
      (if x1 > 0 ∧ isBoxComplete (x1 - 1) topY lineSet then [(x1 - 1, topY)] else []) ++
      (if x1 < gridSize - 1 ∧ isBoxComplete x1 topY lineSet then [(x1, topY)] else [])
    else []
  let horiz : List Box :=
    if isHorizontal then
      let leftX := min x1 x2
      (if y1 > 0 ∧ isBoxComplete leftX (y1 - 1) lineSet then [(leftX, y1 - 1)] else []) ++
      (if y1 < gridSize - 1 ∧ isBoxComplete leftX y1 lineSet then [(leftX, y1)] else [])
    else []
  vert ++ horiz

/-- gameLogic.ts countBoxSides: how many of the 4 sides of the box at
(x, y) are drawn. -/
def countBoxSides (x y : Int) (lineSet : List Line) : Nat :=
  (if lineSet.contains (lineToKey (x, y, x + 1, y)) then 1 else 0) +
  (if lineSet.contains (lineToKey (x, y + 1, x + 1, y + 1)) then 1 else 0) +
  (if lineSet.contains (lineToKey (x, y, x, y + 1)) then 1 else 0) +
  (if lineSet.contains (lineToKey (x + 1, y, x + 1, y + 1)) then 1 else 0)

/-- The GameState record of shared/types, with the same fields.  The
boxes object (BoxKey to player index) is an association list with unique
keys; winner is the player index, none for null, and determineWinner's
degenerate empty-scores result (JS indexOf on an empty array) is the
index -1, hence Int. -/
structure GameState where
  gridSize : Int
  lines : List Line
  lineSet : List Line
  boxes : List (Box × Nat)
  scores : List Nat
  currentPlayer : Nat
  maxPlayers : Nat
  started : Bool
  gameOver : Bool
  winner : Option Int
  deriving Repr, DecidableEq

attribute [ext] GameState

/-- gameLogic.ts createInitialState. -/
def createInitialState (gridSize : Int) (maxPlayers : Nat) : GameState :=
  { gridSize := gridSize
    lines := []
    lineSet := []
    boxes := []
    scores := List.replicate maxPlayers 0
    currentPlayer := 0
    maxPlayers := maxPlayers
    started := false
    gameOver := false
    winner := none }

/-- gameLogic.ts totalPossibleLines: 2 * gridSize * (gridSize - 1). -/
def totalPossibleLines (gridSize : Int) : Int :=
  2 * gridSize * (gridSize - 1)

/-- gameLogic.ts determineWinner: Math.max over the scores, null on a
shared maximum, otherwise indexOf of the maximum.  On an empty scores
array the source returns indexOf(-Infinity) = -1; that branch is spelled
out here. -/
def determineWinner (scores : List Nat) : Option Int :=
  if scores.isEmpty then some (-1)
  else
    let mx := scores.foldl Nat.max 0
    if scores.count mx > 1 then none
    else some ((scores.indexOf mx : Nat) : Int)

/-- The for-loop over completedBoxes in applyMove: assign each box whose
owner is unset to the mover, bump the mover's score, and record whether
any box was newly completed. -/
def assignLoop (p : Nat) :
    List Box → List (Box × Nat) → List Nat → Bool →
    List (Box × Nat) × List Nat × Bool
  | [], boxes, scores, flag => (boxes, scores, flag)
  | k :: rest, boxes, scores, flag =>
    match boxes.lookup k with
    | none => assignLoop p rest (boxes ++ [(k, p)]) (scores.set p (scores.getD p 0 + 1)) true
    | some _ => assignLoop p rest boxes scores flag

/-- gameLogic.ts applyMove: validate, insert the normalized line, detect
completed boxes, score, advance the turn, and check for game over.
Returns none exactly where the source returns null. -/
def applyMove (s : GameState) (line : Line) (playerIndex : Nat) : Option GameState :=
  if ¬ isValidLine line s.gridSize then none
  else if s.gameOver then none
  else if s.currentPlayer ≠ playerIndex then none
  else
    let normalized := normalizeLine line
    let key := lineToKey normalized
    if s.lineSet.contains key then none
    else
      let newLines := s.lines ++ [normalized]
      let newLineSet := s.lineSet ++ [key]
      let completedBoxes := findCompletedBoxes normalized s.gridSize newLineSet
      let res := assignLoop playerIndex completedBoxes s.boxes s.scores false
      let newBoxes := res.1
      let newScores := res.2.1
      let boxCompleted := res.2.2
      let nextPlayer := if boxCompleted then playerIndex else (playerIndex + 1) % s.maxPlayers
      let totalLines := totalPossibleLines s.gridSize
      let isOver : Bool := totalLines ≤ (newLines.length : Int)
      let winner := if isOver then determineWinner newScores else none
      some { s with
        lines := newLines
        lineSet := newLineSet
        boxes := newBoxes
        scores := newScores
        currentPlayer := if isOver then playerIndex else nextPlayer
        gameOver := isOver
        winner := winner }

/-- The integer counter values of a JS loop for (let i = 0; i < n; i++). -/
def intRange (n : Int) : List Int :=
  (List.range n.toNat).map Int.ofNat

/-- The horizontal-lines double loop of getAvailableLines: y over
[0, gridSize), x over [0, gridSize - 1), line [x, y, x+1, y]. -/
def genHorizontal (g : Int) : List Line :=
  (intRange g).flatMap fun y =>
    (intRange (g - 1)).map fun x => (x, y, x + 1, y)

/-- The vertical-lines double loop of getAvailableLines: y over
[0, gridSize - 1), x over [0, gridSize), line [x, y, x, y+1]. -/
def genVertical (g : Int) : List Line :=
  (intRange (g - 1)).flatMap fun y =>
    (intRange g).map fun x => (x, y, x, y + 1)

/-- All grid lines in getAvailableLines traversal order. -/
def genLines (g : Int) : List Line := genHorizontal g ++ genVertical g

/-- gameLogic.ts getAvailableLines: every generated line whose key is not
in the drawn set, in generation order (the source tests membership inside
the loops; filtering the generated list yields the same list). -/
def getAvailableLines (s : GameState) : List Line :=
  (genLines s.gridSize).filter fun l => !(s.lineSet.contains (lineToKey l))

/-- Search values of the hard AI: integers together with the -Infinity
and +Infinity sentinels the source uses for alpha, beta and the running
best. -/
abbrev SearchValue := WithBot (WithTop Int)

/-- Inject a finite evaluation into the search-value order. -/
def intVal (z : Int) : SearchValue := ((z : WithTop Int) : SearchValue)

/-- The leaf evaluation of useAI minimax: the AI's score minus the summed
scores of every other player. -/
def evalState (s : GameState) (ai : Nat) : Int :=
  (s.scores.getD ai 0 : Int) -
    s.scores.enum.foldl (fun acc q => if q.1 ≠ ai then acc + (q.2 : Int) else acc) 0

mutual

/-- useAI minimax: depth-bounded alpha-beta search over applyMove.  A
leaf (depth 0, game over, or no available move) returns the score
differential; otherwise the maximizing branch is taken when isMaximizing
is set or the current player is the AI. -/
def minimax (ai : Nat) (d : Nat) (s : GameState) (alpha beta : SearchValue)
    (isMax : Bool) : SearchValue :=
  match d with
  | 0 => intVal (evalState s ai)
  | Nat.succ d2 =>
    if s.gameOver then intVal (evalState s ai)
    else
      let available := getAvailableLines s
      if available.isEmpty then intVal (evalState s ai)
      else if isMax || decide (s.currentPlayer = ai) then
        maxLoop ai d2 s available alpha beta ⊥
      else
        minLoop ai d2 s available alpha beta ⊤
termination_by (d, 0)

/-- The maximizing for-loop of minimax: fold max over the child values,
raising alpha, with the source's beta <= alpha cutoff; children whose
applyMove fails are skipped as in the source's continue. -/
def maxLoop (ai d : Nat) (s : GameState) (moves : List Line)
    (alpha beta acc : SearchValue) : SearchValue :=
  match moves with
  | [] => acc
  | l :: rest =>
    match applyMove s (normalizeLine l) s.currentPlayer with
    | none => maxLoop ai d s rest alpha beta acc
    | some s2 =>
      let ev := minimax ai d s2 alpha beta (decide (s2.currentPlayer = ai))
      let acc2 := max acc ev
      let alpha2 := max alpha ev
      if beta ≤ alpha2 then acc2 else maxLoop ai d s rest alpha2 beta acc2
termination_by (d, moves.length + 1)

/-- The minimizing for-loop of minimax, dual to maxLoop. -/
def minLoop (ai d : Nat) (s : GameState) (moves : List Line)
    (alpha beta acc : SearchValue) : SearchValue :=
  match moves with
  | [] => acc
  | l :: rest =>
    match applyMove s (normalizeLine l) s.currentPlayer with
    | none => minLoop ai d s rest alpha beta acc
    | some s2 =>
      let ev := minimax ai d s2 alpha beta (decide (s2.currentPlayer = ai))
      let acc2 := min acc ev
      let beta2 := min beta ev
      if beta2 ≤ alpha then acc2 else minLoop ai d s rest alpha beta2 acc2
termination_by (d, moves.length + 1)

end

/-- The root loop of useAI hardAI: track the best score and the first
move that strictly improves on it. -/
def hardLoop (ai maxDepth : Nat) (s : GameState) :
    List Line → SearchValue → Option Line → Option Line
  | [], _, best => best
  | l :: rest, bestScore, best =>
    match applyMove s (normalizeLine l) s.currentPlayer with
    | none => hardLoop ai maxDepth s rest bestScore best
    | some s2 =>
      let sc := minimax ai (maxDepth - 1) s2 ⊥ ⊤ false
      if bestScore < sc then hardLoop ai maxDepth s rest sc (some l)
      else hardLoop ai maxDepth s rest bestScore best

/-- useAI hardAI: null when no move is available, else minimax from the
root with exhaustive depth when at most 12 moves remain and depth 6
otherwise. -/
def hardAI (s : GameState) (ai : Nat) : Option Line :=
  let available := getAvailableLines s
  if available.isEmpty then none
  else
    let maxDepth := if available.length ≤ 12 then available.length else 6
    hardLoop ai maxDepth s available ⊥ none

/-- The simulated completion test of mediumAI priority 1: placing the
line completes at least one box. -/
def completesBox (s : GameState) (l : Line) : Bool :=
  let normalized := normalizeLine l
  let testSet := s.lineSet ++ [lineToKey normalized]
  !(findCompletedBoxes normalized s.gridSize testSet).isEmpty

/-- The danger scan of mediumAI priority 2: after simulating the line,
some box in the grid has exactly 3 sides and no owner. -/
def createsDanger (s : GameState) (l : Line) : Bool :=
  let normalized := normalizeLine l
  let testSet := s.lineSet ++ [lineToKey normalized]
  (intRange (s.gridSize - 1)).any fun y =>
    (intRange (s.gridSize - 1)).any fun x =>
      countBoxSides x y testSet == 3 && (s.boxes.lookup (x, y)).isNone

/-- useAI mediumAI.  The two Math.random indexing choices are made
explicit parameters: Math.floor(Math.random() * len) ranges over
[0, len), modelled by r % len for an arbitrary natural r. -/
def mediumAI (s : GameState) (r1 r2 : Nat) : Option Line :=
  let available := getAvailableLines s
  if available.isEmpty then none
  else
    match available.find? (fun l => completesBox s l) with
    | some l => some l
    | none =>
      let safeMoves := available.filter fun l => !(createsDanger s l)
      if 0 < safeMoves.length then
        some (safeMoves.getD (r1 % safeMoves.length) (0, 0, 0, 0))
      else
        some (available.getD (r2 % available.length) (0, 0, 0, 0))

/-! ### applyMove characterization -/

/-- The box/score/flag triple computed on the success path of applyMove
(the line already normalized, the post-insertion set used for
completion). -/
def applyParts (s : GameState) (l : Line) (p : Nat) : List (Box × Nat) × List Nat × Bool :=
  assignLoop p (findCompletedBoxes (normalizeLine l) s.gridSize
    (s.lineSet ++ [normalizeLine l])) s.boxes s.scores false

/-! ### Box geometry -/

/-- The four sides of the box at (x, y), in the order isBoxComplete and
countBoxSides test them (top, bottom, left, right). -/
def boxSides (x y : Int) : List Line :=
  [(x, y, x + 1, y), (x, y + 1, x + 1, y + 1), (x, y, x, y + 1), (x + 1, y, x + 1, y + 1)]

/-- The boxes of the grid: (x, y) with both coordinates in [0, g-1), the
range scanned by the mediumAI danger loops. -/
def genBoxes (g : Int) : List Box :=
  (intRange (g - 1)).flatMap fun y => (intRange (g - 1)).map fun x => (x, y)

/-! ### Reachability and the inductive invariant -/

/-- States reachable from createInitialState by successful applyMove
calls. -/
inductive Reachable (g : Int) (pc : Nat) : GameState → Prop where
  | init : Reachable g pc (createInitialState g pc)
  | step {s s' : GameState} {l : Line} {p : Nat} :
      Reachable g pc s → applyMove s l p = some s' → Reachable g pc s'

/-- The inductive invariant maintained by applyMove. -/
structure Inv (g : Int) (pc : Nat) (s : GameState) : Prop where
  grid : s.gridSize = g
  players : s.maxPlayers = pc
  scoresLen : s.scores.length = pc
  cur : s.currentPlayer < pc
  linesEq : s.lines = s.lineSet
  nodup : s.lineSet.Nodup
  linesMem : ∀ l ∈ s.lineSet, l ∈ genLines g
  over : s.gameOver = decide (totalPossibleLines g ≤ (s.lineSet.length : Int))
  sumScores : s.scores.sum = s.boxes.length
  keysNodup : (s.boxes.map Prod.fst).Nodup
  boxesMem : ∀ e ∈ s.boxes, e.1 ∈ genBoxes g
  ownerComplete : ∀ e ∈ s.boxes, isBoxComplete e.1.1 e.1.2 s.lineSet = true
  completeOwner : ∀ b ∈ genBoxes g, isBoxComplete b.1 b.2 s.lineSet = true →
      (s.boxes.lookup b).isSome = true

/-- The spec-side description of winner determination: a strict unique
maximiser, or a shared maximum meaning "no winner". -/
def winnerSpec (scores : List Nat) (w : Option Int) : Prop :=
  match w with
  | some i => 0 ≤ i ∧ i.toNat < scores.length ∧
      ∀ j < scores.length, j ≠ i.toNat → scores.getD j 0 < scores.getD i.toNat 0
  | none => ∃ j k, j < scores.length ∧ k < scores.length ∧ j ≠ k ∧
      (∀ m < scores.length, scores.getD m 0 ≤ scores.getD j 0) ∧
      scores.getD k 0 = scores.getD j 0

/-- The number of boxes of the grid that currently have an owner. -/
def ownedBoxCount (s : GameState) : Nat :=
  ((genBoxes s.gridSize).filter fun b => (s.boxes.lookup b).isSome).length

/-! ### Demo games used by the witnesses -/

/-- Test helper: fold applyMove over a list of lines, each played by the
then-current player. -/
def playAll (s : GameState) : List Line → Option GameState
  | [] => some s
  | l :: rest =>
    match applyMove s l s.currentPlayer with
    | none => none
    | some s2 => playAll s2 rest

/-- A 3x3 board with the first eleven generated lines drawn. -/
def demoNearEnd : GameState :=
  (playAll (createInitialState 3 2) ((genLines 3).take 11)).getD (createInitialState 3 2)

/-- The empty 3x3 board after the first move (0,0)-(1,0) by player 0. -/
def demoOne : GameState :=
  (applyMove (createInitialState 3 2) (0, 0, 1, 0) 0).getD (createInitialState 3 2)

/-- A 3x3 board with three sides of box (0,0) drawn. -/
def demoThreeSided : GameState :=
  (playAll (createInitialState 3 2) [(0, 0, 1, 0), (0, 0, 0, 1), (0, 1, 1, 1)]).getD
    (createInitialState 3 2)

/-- demoThreeSided after the box-completing move (1,0)-(1,1) by player 1. -/
def demoCompleted : GameState :=
  (applyMove demoThreeSided (1, 0, 1, 1) 1).getD demoThreeSided

/-- The 3x3 demo game completed by the twelfth line. -/
def demoFull : GameState :=
  (applyMove demoNearEnd (2, 1, 2, 2) 0).getD demoNearEnd

/-! ### The hard AI: root selection and depth policy -/

/-- The value hardAI attaches to a root move: the minimax value of the
child state, with the sentinel -Infinity for a move whose applyMove
fails (such a move is skipped by the loop and can never be selected). -/
def childValue (s : GameState) (ai d : Nat) (l : Line) : SearchValue :=
  match applyMove s (normalizeLine l) s.currentPlayer with
  | none => ⊥
  | some s2 => minimax ai d s2 ⊥ ⊤ false

/-- The root loop of hardAI with the child evaluation abstracted into a
function: track the best value and the first strict improver. -/
def selectLoop (f : Line → SearchValue) : List Line → SearchValue → Option Line → Option Line
  | [], _, best => best
  | l :: rest, bestScore, best =>
    if bestScore < f l then selectLoop f rest (f l) (some l)
    else selectLoop f rest bestScore best

/-- The spec's root-selection rule, written from its words: the first
move in enumeration order whose value is highest (every other move's
value is at most its own). -/
def firstMaxBy (f : Line → SearchValue) (xs : List Line) : Option Line :=
  xs.find? fun x => xs.all fun y => decide (f y ≤ f x)

/-! ### Theorems -/

/-! ### Arithmetic characterizations of validity, normalization and the
generated line list -/

theorem isValidLine_def {a b c d g : Int} :
    isValidLine (a, b, c, d) g =
      (if a < 0 ∨ a ≥ g ∨ b < 0 ∨ b ≥ g then false
       else if c < 0 ∨ c ≥ g ∨ d < 0 ∨ d ≥ g then false
       else decide (((c - a).natAbs = 1 ∧ (d - b).natAbs = 0) ∨
         ((c - a).natAbs = 0 ∧ (d - b).natAbs = 1))) := rfl

theorem isValidLine_iff {a b c d g : Int} :
    isValidLine (a, b, c, d) g = true ↔
      0 ≤ a ∧ a < g ∧ 0 ≤ b ∧ b < g ∧ 0 ≤ c ∧ c < g ∧ 0 ≤ d ∧ d < g ∧
      ((c = a + 1 ∨ c = a - 1) ∧ d = b ∨ c = a ∧ (d = b + 1 ∨ d = b - 1)) := by
  rw [isValidLine_def]
  split_ifs with h1 h2
  · simp only [Bool.false_eq_true, false_iff]; omega
  · simp only [Bool.false_eq_true, false_iff]; omega
  · simp only [decide_eq_true_eq]
    constructor
    · intro h
      refine ⟨by omega, by omega, by omega, by omega, by omega, by omega, by omega, by omega, ?_⟩
      omega
    · rintro ⟨-, -, -, -, -, -, -, -, h⟩; omega

theorem normalizeLine_eq {a b c d : Int} :
    normalizeLine (a, b, c, d) =
      if b < d ∨ (b = d ∧ a < c) then (a, b, c, d) else (c, d, a, b) := rfl

theorem normalizeLine_horiz {x y : Int} :
    normalizeLine (x, y, x + 1, y) = (x, y, x + 1, y) := by
  rw [normalizeLine_eq, if_pos]; right; exact ⟨rfl, by omega⟩

theorem normalizeLine_vert {x y : Int} :
    normalizeLine (x, y, x, y + 1) = (x, y, x, y + 1) := by
  rw [normalizeLine_eq, if_pos]; left; omega

theorem mem_intRange {n z : Int} : z ∈ intRange n ↔ 0 ≤ z ∧ z < n := by
  unfold intRange
  rw [List.mem_map]
  constructor
  · rintro ⟨i, hi, rfl⟩
    rw [List.mem_range] at hi
    simp only [Int.ofNat_eq_natCast]
    omega
  · rintro ⟨h0, h1⟩
    refine ⟨z.toNat, ?_, ?_⟩
    · rw [List.mem_range]; omega
    · simp only [Int.ofNat_eq_natCast]; omega

theorem mem_genHorizontal {g : Int} {l : Line} :
    l ∈ genHorizontal g ↔
      ∃ x y : Int, l = (x, y, x + 1, y) ∧ 0 ≤ x ∧ x < g - 1 ∧ 0 ≤ y ∧ y < g := by
  unfold genHorizontal
  simp only [List.mem_flatMap, List.mem_map, mem_intRange]
  constructor
  · rintro ⟨y, hy, x, hx, rfl⟩
    exact ⟨x, y, rfl, hx.1, hx.2, hy.1, hy.2⟩
  · rintro ⟨x, y, rfl, hx0, hx1, hy0, hy1⟩
    exact ⟨y, ⟨hy0, hy1⟩, x, ⟨hx0, hx1⟩, rfl⟩

theorem mem_genVertical {g : Int} {l : Line} :
    l ∈ genVertical g ↔
      ∃ x y : Int, l = (x, y, x, y + 1) ∧ 0 ≤ x ∧ x < g ∧ 0 ≤ y ∧ y < g - 1 := by
  unfold genVertical
  simp only [List.mem_flatMap, List.mem_map, mem_intRange]
  constructor
  · rintro ⟨y, hy, x, hx, rfl⟩
    exact ⟨x, y, rfl, hx.1, hx.2, hy.1, hy.2⟩
  · rintro ⟨x, y, rfl, hx0, hx1, hy0, hy1⟩
    exact ⟨y, ⟨hy0, hy1⟩, x, ⟨hx0, hx1⟩, rfl⟩

/-- Membership in the generated list is exactly validity plus
normalization. -/
theorem mem_genLines {g : Int} {l : Line} :
    l ∈ genLines g ↔ isValidLine l g = true ∧ normalizeLine l = l := by
  unfold genLines
  rw [List.mem_append, mem_genHorizontal, mem_genVertical]
  constructor
  · rintro (⟨x, y, rfl, hx0, hx1, hy0, hy1⟩ | ⟨x, y, rfl, hx0, hx1, hy0, hy1⟩)
    · exact ⟨isValidLine_iff.mpr ⟨by omega, by omega, by omega, by omega, by omega, by omega,
        by omega, by omega, by omega⟩, normalizeLine_horiz⟩
    · exact ⟨isValidLine_iff.mpr ⟨by omega, by omega, by omega, by omega, by omega, by omega,
        by omega, by omega, by omega⟩, normalizeLine_vert⟩
  · obtain ⟨a, b, c, d⟩ := l
    rintro ⟨hval, hnorm⟩
    rw [isValidLine_iff] at hval
    rw [normalizeLine_eq] at hnorm
    obtain ⟨ha0, ha1, hb0, hb1, hc0, hc1, hd0, hd1, hshape⟩ := hval
    by_cases hcond : b < d ∨ (b = d ∧ a < c)
    · rcases hshape with ⟨hc2 | hc2, hd2⟩ | ⟨hc2, hd2 | hd2⟩
      · left; exact ⟨a, b, by rw [hc2, hd2], by omega, by omega, by omega, by omega⟩
      · exfalso; omega
      · right; exact ⟨a, b, by rw [hc2, hd2], by omega, by omega, by omega, by omega⟩
      · exfalso; omega
    · rw [if_neg hcond] at hnorm
      have h4 : c = a ∧ d = b ∧ a = c ∧ b = d := by
        simpa [Prod.ext_iff] using hnorm
      exfalso; omega

theorem contains_iff_mem {xs : List Line} {a : Line} : xs.contains a = true ↔ a ∈ xs := by
  simp

theorem box_contains_iff_mem {xs : List Box} {a : Box} : xs.contains a = true ↔ a ∈ xs := by
  simp

theorem normalizeLine_idem (l : Line) : normalizeLine (normalizeLine l) = normalizeLine l := by
  obtain ⟨a, b, c, d⟩ := l
  have hin : normalizeLine (a, b, c, d) =
      if b < d ∨ (b = d ∧ a < c) then (a, b, c, d) else (c, d, a, b) := normalizeLine_eq
  by_cases h1 : b < d ∨ (b = d ∧ a < c)
  · rw [hin, if_pos h1, hin, if_pos h1]
  · rw [hin, if_neg h1, normalizeLine_eq]
    by_cases h2 : d < b ∨ (d = b ∧ c < a)
    · rw [if_pos h2]
    · rw [if_neg h2]
      simp only [Prod.mk.injEq]
      omega

theorem isValidLine_normalizeLine {l : Line} {g : Int} :
    isValidLine (normalizeLine l) g = isValidLine l g := by
  obtain ⟨a, b, c, d⟩ := l
  rw [normalizeLine_eq]
  by_cases h1 : b < d ∨ (b = d ∧ a < c)
  · rw [if_pos h1]
  · rw [if_neg h1]
    rw [Bool.eq_iff_iff, isValidLine_iff, isValidLine_iff]
    constructor
    · rintro ⟨k1, k2, k3, k4, k5, k6, k7, k8, k9⟩
      exact ⟨by omega, by omega, by omega, by omega, by omega, by omega, by omega, by omega,
        by omega⟩
    · rintro ⟨k1, k2, k3, k4, k5, k6, k7, k8, k9⟩
      exact ⟨by omega, by omega, by omega, by omega, by omega, by omega, by omega, by omega,
        by omega⟩

/-- A valid line normalizes into the generated list. -/
theorem normalize_mem_genLines {l : Line} {g : Int} (h : isValidLine l g = true) :
    normalizeLine l ∈ genLines g := by
  rw [mem_genLines]
  exact ⟨by rw [isValidLine_normalizeLine]; exact h, normalizeLine_idem l⟩

theorem intRange_nodup (n : Int) : (intRange n).Nodup := by
  unfold intRange
  refine (List.nodup_range _).map fun a b h => ?_
  simp only [Int.ofNat_eq_natCast] at h
  omega

theorem intRange_length (n : Int) : (intRange n).length = n.toNat := by
  simp [intRange]

theorem genHorizontal_nodup (g : Int) : (genHorizontal g).Nodup := by
  unfold genHorizontal
  rw [List.nodup_flatMap]
  constructor
  · intro y _
    exact (intRange_nodup _).map fun a b h => by
      simpa [Prod.ext_iff] using congrArg (fun q : Line => q.1) h
  · refine (intRange_nodup g).imp ?_
    intro y1 y2 hne
    intro a ha1 ha2
    rw [List.mem_map] at ha1 ha2
    obtain ⟨x1, -, rfl⟩ := ha1
    obtain ⟨x2, -, heq⟩ := ha2
    have h2 : y2 = y1 := by simpa using congrArg (fun q : Line => q.2.1) heq
    exact hne h2.symm

theorem genVertical_nodup (g : Int) : (genVertical g).Nodup := by
  unfold genVertical
  rw [List.nodup_flatMap]
  constructor
  · intro y _
    exact (intRange_nodup _).map fun a b h => by
      simpa [Prod.ext_iff] using congrArg (fun q : Line => q.1) h
  · refine (intRange_nodup (g - 1)).imp ?_
    intro y1 y2 hne
    intro a ha1 ha2
    rw [List.mem_map] at ha1 ha2
    obtain ⟨x1, -, rfl⟩ := ha1
    obtain ⟨x2, -, heq⟩ := ha2
    have h2 : y2 = y1 := by simpa using congrArg (fun q : Line => q.2.1) heq
    exact hne h2.symm

theorem genLines_nodup (g : Int) : (genLines g).Nodup := by
  unfold genLines
  refine (genHorizontal_nodup g).append (genVertical_nodup g) ?_
  intro a ha hv
  rw [mem_genHorizontal] at ha
  rw [mem_genVertical] at hv
  obtain ⟨x, y, rfl, -⟩ := ha
  obtain ⟨x', y', heq, -⟩ := hv
  have h1 : x = x' ∧ y = y' ∧ x + 1 = x' ∧ y = y' + 1 := by
    simpa [Prod.ext_iff] using heq
  omega

theorem genHorizontal_length (g : Int) :
    (genHorizontal g).length = g.toNat * (g - 1).toNat := by
  unfold genHorizontal
  rw [List.length_flatMap]
  have hcomp : (List.length ∘ fun y : Int => List.map (fun x => (x, y, x + 1, y))
      (intRange (g - 1))) = fun _ : Int => (g - 1).toNat := by
    funext y
    simp [intRange_length]
  rw [hcomp, List.map_const', List.sum_replicate, intRange_length, smul_eq_mul]

theorem genVertical_length (g : Int) :
    (genVertical g).length = (g - 1).toNat * g.toNat := by
  unfold genVertical
  rw [List.length_flatMap]
  have hcomp : (List.length ∘ fun y : Int => List.map (fun x => (x, y, x, y + 1))
      (intRange g)) = fun _ : Int => g.toNat := by
    funext y
    simp [intRange_length]
  rw [hcomp, List.map_const', List.sum_replicate, intRange_length, smul_eq_mul]

/-- The generated list realizes totalPossibleLines. -/
theorem genLines_length {g : Int} (hg : 1 ≤ g) :
    ((genLines g).length : Int) = totalPossibleLines g := by
  unfold genLines totalPossibleLines
  rw [List.length_append, genHorizontal_length, genVertical_length]
  push_cast
  rw [show ((g.toNat : Int)) = g by omega, show (((g - 1).toNat : Int)) = g - 1 by omega]
  ring

/-! ### Association list and score list helpers -/

theorem lookup_eq_none_iff {boxes : List (Box × Nat)} {k : Box} :
    boxes.lookup k = none ↔ k ∉ boxes.map Prod.fst := by
  induction boxes with
  | nil => simp [List.lookup]
  | cons e t ih =>
    obtain ⟨k', v⟩ := e
    by_cases h : k = k'
    · subst h
      simp [List.lookup]
    · simp [List.lookup, beq_false_of_ne h, ih, h]

theorem lookup_append_of_isSome {boxes t : List (Box × Nat)} {k : Box} {v : Nat}
    (h : boxes.lookup k = some v) : (boxes ++ t).lookup k = some v := by
  induction boxes with
  | nil => simp [List.lookup] at h
  | cons e r ih =>
    obtain ⟨k', v'⟩ := e
    by_cases hk : k = k'
    · subst hk
      simp_all [List.lookup]
    · simp only [List.lookup, beq_false_of_ne hk] at h
      simp only [List.cons_append, List.lookup, beq_false_of_ne hk]
      exact ih h

theorem lookup_append_single_of_none {boxes : List (Box × Nat)} {k k' : Box} {p : Nat}
    (h : boxes.lookup k = none) :
    (boxes ++ [(k', p)]).lookup k = if k = k' then some p else none := by
  induction boxes with
  | nil =>
    by_cases hk : k = k'
    · subst hk; simp [List.lookup]
    · simp [List.lookup, beq_false_of_ne hk, hk]
  | cons e r ih =>
    obtain ⟨kh, vh⟩ := e
    by_cases hk : k = kh
    · subst hk
      simp [List.lookup] at h
    · simp only [List.lookup, beq_false_of_ne hk] at h
      simp only [List.cons_append, List.lookup, beq_false_of_ne hk]
      exact ih h

theorem getD_set_self {l : List Nat} {i : Nat} {v : Nat} (h : i < l.length) :
    (l.set i v).getD i 0 = v := by
  induction l generalizing i with
  | nil => simp at h
  | cons a t ih =>
    cases i with
    | zero => simp
    | succ n =>
      simp only [List.set, List.getD_cons_succ]
      exact ih (by simpa using h)

theorem getD_set_ne {l : List Nat} {i j : Nat} {v : Nat} (h : i ≠ j) :
    (l.set i v).getD j 0 = l.getD j 0 := by
  induction l generalizing i j with
  | nil => simp
  | cons a t ih =>
    cases i with
    | zero =>
      cases j with
      | zero => exact absurd rfl h
      | succ m => simp
    | succ n =>
      cases j with
      | zero => simp
      | succ m =>
        simp only [List.set, List.getD_cons_succ]
        exact ih (by omega)

theorem sum_set_inc {l : List Nat} {i : Nat} (h : i < l.length) :
    (l.set i (l.getD i 0 + 1)).sum = l.sum + 1 := by
  induction l generalizing i with
  | nil => simp at h
  | cons a t ih =>
    cases i with
    | zero => simp [List.sum_cons]; omega
    | succ n =>
      simp only [List.getD_cons_succ, List.set, List.sum_cons]
      rw [ih (by simpa using h)]
      omega

/-! ### assignLoop lemmas -/

theorem assignLoop_lookup_mono {p : Nat} {ks : List Box} {boxes : List (Box × Nat)}
    {scores : List Nat} {flag : Bool} {k : Box} {v : Nat}
    (h : boxes.lookup k = some v) :
    (assignLoop p ks boxes scores flag).1.lookup k = some v := by
  induction ks generalizing boxes scores flag with
  | nil => simpa [assignLoop] using h
  | cons kh rest ih =>
    rw [assignLoop]
    cases hl : boxes.lookup kh with
    | none => exact ih (lookup_append_of_isSome h)
    | some w => exact ih h

theorem assignLoop_lookup_new {p : Nat} {ks : List Box} {boxes : List (Box × Nat)}
    {scores : List Nat} {flag : Bool} {k : Box}
    (hk : k ∈ ks) (h : boxes.lookup k = none) :
    (assignLoop p ks boxes scores flag).1.lookup k = some p := by
  induction ks generalizing boxes scores flag with
  | nil => simp at hk
  | cons kh rest ih =>
    rw [assignLoop]
    rcases List.mem_cons.mp hk with rfl | hmem
    · rw [h]
      exact assignLoop_lookup_mono (by rw [lookup_append_single_of_none h, if_pos rfl])
    · cases hl : boxes.lookup kh with
      | none =>
        by_cases hkh : k = kh
        · subst hkh
          exact assignLoop_lookup_mono (by rw [lookup_append_single_of_none h, if_pos rfl])
        · exact ih hmem (by rw [lookup_append_single_of_none h, if_neg hkh])
      | some w => exact ih hmem h

theorem assignLoop_lookup_not_mem {p : Nat} {ks : List Box} {boxes : List (Box × Nat)}
    {scores : List Nat} {flag : Bool} {k : Box}
    (hk : k ∉ ks) :
    (assignLoop p ks boxes scores flag).1.lookup k = boxes.lookup k := by
  induction ks generalizing boxes scores flag with
  | nil => simp [assignLoop]
  | cons kh rest ih =>
    rw [assignLoop]
    have hne : k ≠ kh := fun h => hk (h ▸ List.mem_cons_self kh rest)
    have hmem : k ∉ rest := fun h => hk (List.mem_cons_of_mem _ h)
    cases hl : boxes.lookup kh with
    | none =>
      rw [ih hmem]
      cases hlk : boxes.lookup k with
      | none => rw [lookup_append_single_of_none hlk, if_neg hne]
      | some w => rw [lookup_append_of_isSome hlk]
    | some w => exact ih hmem

theorem assignLoop_scores_other {p j : Nat} {ks : List Box} {boxes : List (Box × Nat)}
    {scores : List Nat} {flag : Bool} (hj : j ≠ p) :
    (assignLoop p ks boxes scores flag).2.1.getD j 0 = scores.getD j 0 := by
  induction ks generalizing boxes scores flag with
  | nil => simp [assignLoop]
  | cons kh rest ih =>
    rw [assignLoop]
    cases hl : boxes.lookup kh with
    | none => rw [ih, getD_set_ne (fun h => hj h.symm)]
    | some w => exact ih

theorem assignLoop_scores_mover {p : Nat} {ks : List Box} {boxes : List (Box × Nat)}
    {scores : List Nat} {flag : Bool} (hp : p < scores.length) :
    (assignLoop p ks boxes scores flag).2.1.getD p 0 + boxes.length
      = scores.getD p 0 + (assignLoop p ks boxes scores flag).1.length := by
  induction ks generalizing boxes scores flag with
  | nil => simp [assignLoop]
  | cons kh rest ih =>
    rw [assignLoop]
    cases hl : boxes.lookup kh with
    | none =>
      dsimp only
      have h2 := @ih (boxes ++ [(kh, p)])
        (scores.set p (scores.getD p 0 + 1)) true
        (by rw [List.length_set]; exact hp)
      rw [getD_set_self hp, List.length_append] at h2
      simp only [List.length_cons, List.length_nil] at h2
      omega
    | some w => exact ih hp

theorem assignLoop_scores_sum {p : Nat} {ks : List Box} {boxes : List (Box × Nat)}
    {scores : List Nat} {flag : Bool} (hp : p < scores.length) :
    (assignLoop p ks boxes scores flag).2.1.sum + boxes.length
      = scores.sum + (assignLoop p ks boxes scores flag).1.length := by
  induction ks generalizing boxes scores flag with
  | nil => simp [assignLoop]
  | cons kh rest ih =>
    rw [assignLoop]
    cases hl : boxes.lookup kh with
    | none =>
      dsimp only
      have h2 := @ih (boxes ++ [(kh, p)])
        (scores.set p (scores.getD p 0 + 1)) true
        (by rw [List.length_set]; exact hp)
      rw [sum_set_inc hp, List.length_append] at h2
      simp only [List.length_cons, List.length_nil] at h2
      omega
    | some w => exact ih hp

theorem assignLoop_flag_true {p : Nat} {ks : List Box} {boxes : List (Box × Nat)}
    {scores : List Nat} :
    (assignLoop p ks boxes scores true).2.2 = true := by
  induction ks generalizing boxes scores with
  | nil => simp [assignLoop]
  | cons kh rest ih =>
    rw [assignLoop]
    cases hl : boxes.lookup kh with
    | none => exact ih
    | some w => exact ih

theorem assignLoop_flag_iff {p : Nat} {ks : List Box} {boxes : List (Box × Nat)}
    {scores : List Nat} {flag : Bool} :
    (assignLoop p ks boxes scores flag).2.2 = true ↔
      flag = true ∨ ∃ k ∈ ks, boxes.lookup k = none := by
  induction ks generalizing boxes scores flag with
  | nil => simp [assignLoop]
  | cons kh rest ih =>
    rw [assignLoop]
    cases hl : boxes.lookup kh with
    | none =>
      rw [assignLoop_flag_true]
      simp only [true_iff]
      right
      exact ⟨kh, List.mem_cons_self kh rest, hl⟩
    | some w =>
      rw [ih]
      constructor
      · rintro (hf | ⟨k, hk, hkl⟩)
        · exact Or.inl hf
        · exact Or.inr ⟨k, List.mem_cons_of_mem _ hk, hkl⟩
      · rintro (hf | ⟨k, hk, hkl⟩)
        · exact Or.inl hf
        · rcases List.mem_cons.mp hk with rfl | hmem
          · rw [hl] at hkl; exact absurd hkl (by simp)
          · exact Or.inr ⟨k, hmem, hkl⟩

theorem assignLoop_boxes_extra {p : Nat} {ks : List Box} {boxes : List (Box × Nat)}
    {scores : List Nat} {flag : Bool} :
    ∃ extra : List (Box × Nat),
      (assignLoop p ks boxes scores flag).1 = boxes ++ extra ∧
      ∀ e ∈ extra, e.1 ∈ ks ∧ e.2 = p := by
  induction ks generalizing boxes scores flag with
  | nil => exact ⟨[], by simp [assignLoop], by simp⟩
  | cons kh rest ih =>
    rw [assignLoop]
    cases hl : boxes.lookup kh with
    | none =>
      obtain ⟨extra, he, hmem⟩ := @ih (boxes ++ [(kh, p)])
        (scores.set p (scores.getD p 0 + 1)) true
      refine ⟨(kh, p) :: extra, by rw [he, List.append_assoc]; rfl, ?_⟩
      intro e he2
      rcases List.mem_cons.mp he2 with rfl | hmem2
      · exact ⟨List.mem_cons_self _ _, rfl⟩
      · obtain ⟨h1, h2⟩ := hmem e hmem2
        exact ⟨List.mem_cons_of_mem _ h1, h2⟩
    | some w =>
      obtain ⟨extra, he, hmem⟩ := ih
      refine ⟨extra, he, fun e hmem2 => ?_⟩
      obtain ⟨h1, h2⟩ := hmem e hmem2
      exact ⟨List.mem_cons_of_mem _ h1, h2⟩

theorem assignLoop_keys_nodup {p : Nat} {ks : List Box} {boxes : List (Box × Nat)}
    {scores : List Nat} {flag : Bool} (hnd : (boxes.map Prod.fst).Nodup) :
    ((assignLoop p ks boxes scores flag).1.map Prod.fst).Nodup := by
  induction ks generalizing boxes scores flag with
  | nil => simpa [assignLoop] using hnd
  | cons kh rest ih =>
    rw [assignLoop]
    cases hl : boxes.lookup kh with
    | none =>
      refine ih ?_
      rw [List.map_append]
      simp only [List.map_cons, List.map_nil]
      rw [List.nodup_append]
      refine ⟨hnd, List.nodup_singleton kh, ?_⟩
      intro a ha hb
      simp only [List.mem_singleton] at hb
      subst hb
      exact (lookup_eq_none_iff.mp hl) ha
    | some w => exact ih hnd

theorem assignLoop_scores_length {p : Nat} {ks : List Box} {boxes : List (Box × Nat)}
    {scores : List Nat} {flag : Bool} :
    (assignLoop p ks boxes scores flag).2.1.length = scores.length := by
  induction ks generalizing boxes scores flag with
  | nil => simp [assignLoop]
  | cons kh rest ih =>
    rw [assignLoop]
    cases hl : boxes.lookup kh with
    | none => rw [ih, List.length_set]
    | some w => exact ih

/-- applyMove rejects exactly when one of the four preconditions fails. -/
theorem applyMove_none_iff {s : GameState} {l : Line} {p : Nat} :
    applyMove s l p = none ↔
      isValidLine l s.gridSize = false ∨ s.gameOver = true ∨ s.currentPlayer ≠ p ∨
        normalizeLine l ∈ s.lineSet := by
  unfold applyMove
  have hkey : lineToKey (normalizeLine l) = normalizeLine l := normalizeLine_idem l
  by_cases h1 : isValidLine l s.gridSize = true
  · rw [if_neg (fun hc => hc h1)]
    by_cases h2 : s.gameOver = true
    · rw [if_pos h2]
      simp [h2]
    · rw [if_neg h2]
      by_cases h3 : s.currentPlayer ≠ p
      · rw [if_pos h3]
        simp [h3]
      · rw [if_neg h3]
        push_neg at h3
        by_cases h4 : normalizeLine l ∈ s.lineSet
        · rw [if_pos (by rw [hkey]; exact contains_iff_mem.mpr h4)]
          simp [h4]
        · rw [if_neg (by rw [hkey]; intro hc; exact h4 (contains_iff_mem.mp hc))]
          simp [h1, h2, h3, h4]
  · rw [if_pos h1]
    simp only [true_iff]
    left
    simpa using h1

/-- applyMove succeeds exactly when the four preconditions hold. -/
theorem applyMove_isSome_iff {s : GameState} {l : Line} {p : Nat} :
    (applyMove s l p).isSome = true ↔
      isValidLine l s.gridSize = true ∧ s.gameOver = false ∧ s.currentPlayer = p ∧
        normalizeLine l ∉ s.lineSet := by
  rw [Option.isSome_iff_ne_none, ne_eq, applyMove_none_iff]
  push_neg
  constructor
  · rintro ⟨k1, k2, k3, k4⟩
    exact ⟨by simpa using k1, by simpa using k2, by simpa using k3, k4⟩
  · rintro ⟨k1, k2, k3, k4⟩
    exact ⟨by simp [k1], by simp [k2], by simp [k3], k4⟩

/-- The preconditions recovered from a successful applyMove. -/
theorem applyMove_some_pre {s s' : GameState} {l : Line} {p : Nat}
    (h : applyMove s l p = some s') :
    isValidLine l s.gridSize = true ∧ s.gameOver = false ∧ s.currentPlayer = p ∧
      normalizeLine l ∉ s.lineSet := by
  rw [← applyMove_isSome_iff, h]
  rfl

/-- The fields of the state produced by a successful applyMove, written in
terms of applyParts. -/
theorem applyMove_some_fields {s s' : GameState} {l : Line} {p : Nat}
    (h : applyMove s l p = some s') :
    s'.gridSize = s.gridSize ∧ s'.maxPlayers = s.maxPlayers ∧ s'.started = s.started ∧
    s'.lines = s.lines ++ [normalizeLine l] ∧
    s'.lineSet = s.lineSet ++ [normalizeLine l] ∧
    s'.boxes = (applyParts s l p).1 ∧
    s'.scores = (applyParts s l p).2.1 ∧
    s'.gameOver = decide (totalPossibleLines s.gridSize ≤ ((s.lines.length + 1 : Nat) : Int)) ∧
    s'.currentPlayer = (if s'.gameOver then p
      else if (applyParts s l p).2.2 then p else (p + 1) % s.maxPlayers) ∧
    s'.winner = (if s'.gameOver then determineWinner ((applyParts s l p).2.1) else none) := by
  obtain ⟨h1, h2, h3, h4⟩ := applyMove_some_pre h
  unfold applyMove at h
  have hkey : lineToKey (normalizeLine l) = normalizeLine l := normalizeLine_idem l
  rw [if_neg (fun hc => hc h1), if_neg (by rw [h2]; simp),
    if_neg (by rw [h3]; simp),
    if_neg (by rw [hkey]; intro hc; exact h4 (contains_iff_mem.mp hc))] at h
  rw [Option.some.injEq] at h
  subst h
  rw [hkey]
  unfold applyParts
  have hlen : (s.lines ++ [normalizeLine l]).length = s.lines.length + 1 := by simp
  refine ⟨rfl, rfl, rfl, rfl, rfl, rfl, rfl, ?_, ?_, ?_⟩
  · show decide _ = decide _
    rw [hlen]
  · show (if decide _ = true then _ else _) = (if decide _ = true then _ else _)
    rw [hlen]
  · show (if decide _ = true then _ else _) = (if decide _ = true then _ else _)
    rw [hlen]

theorem mem_genBoxes {g : Int} {b : Box} :
    b ∈ genBoxes g ↔ 0 ≤ b.1 ∧ b.1 < g - 1 ∧ 0 ≤ b.2 ∧ b.2 < g - 1 := by
  obtain ⟨bx, by'⟩ := b
  unfold genBoxes
  simp only [List.mem_flatMap, List.mem_map, mem_intRange, Prod.mk.injEq]
  constructor
  · rintro ⟨y, hy, x, hx, rfl, rfl⟩
    exact ⟨hx.1, hx.2, hy.1, hy.2⟩
  · rintro ⟨h1, h2, h3, h4⟩
    exact ⟨by', ⟨h3, h4⟩, bx, ⟨h1, h2⟩, rfl, rfl⟩

theorem boxSides_nodup (x y : Int) : (boxSides x y).Nodup := by
  unfold boxSides
  refine List.nodup_cons.mpr ⟨?_, List.nodup_cons.mpr ⟨?_, List.nodup_cons.mpr
    ⟨?_, List.nodup_singleton _⟩⟩⟩ <;>
    (intro h;
     simp only [List.mem_cons, List.mem_singleton, List.not_mem_nil, or_false,
       Prod.mk.injEq] at h;
     omega)

theorem isBoxComplete_iff {x y : Int} {ls : List Line} :
    isBoxComplete x y ls = true ↔ ∀ e ∈ boxSides x y, e ∈ ls := by
  unfold isBoxComplete
  rw [show lineToKey (x, y, x + 1, y) = (x, y, x + 1, y) from normalizeLine_horiz,
    show lineToKey (x, y + 1, x + 1, y + 1) = (x, y + 1, x + 1, y + 1) from normalizeLine_horiz,
    show lineToKey (x, y, x, y + 1) = (x, y, x, y + 1) from normalizeLine_vert,
    show lineToKey (x + 1, y, x + 1, y + 1) = (x + 1, y, x + 1, y + 1) from normalizeLine_vert]
  simp only [Bool.and_eq_true, contains_iff_mem]
  constructor
  · rintro ⟨⟨⟨h1, h2⟩, h3⟩, h4⟩
    intro e he
    simp only [boxSides, List.mem_cons, List.mem_singleton, List.not_mem_nil, or_false] at he
    rcases he with rfl | rfl | rfl | rfl
    · exact h1
    · exact h2
    · exact h3
    · exact h4
  · intro h
    refine ⟨⟨⟨?_, ?_⟩, ?_⟩, ?_⟩ <;> apply h <;> simp [boxSides]

theorem isBoxComplete_append {x y : Int} {ls t : List Line}
    (h : isBoxComplete x y ls = true) : isBoxComplete x y (ls ++ t) = true := by
  rw [isBoxComplete_iff] at h ⊢
  intro e he
  exact List.mem_append_left _ (h e he)

theorem contains_append_single_ne {ls : List Line} {w a : Line} (h : a ≠ w) :
    (ls ++ [w]).contains a = ls.contains a := by
  rw [Bool.eq_iff_iff, contains_iff_mem, contains_iff_mem, List.mem_append, List.mem_singleton]
  constructor
  · rintro (hm | rfl)
    · exact hm
    · exact absurd rfl h
  · exact fun hm => Or.inl hm

/-- Counting sides after inserting a line that is not a side of the box. -/
theorem countBoxSides_append_not_side {x y : Int} {ls : List Line} {w : Line}
    (h : w ∉ boxSides x y) :
    countBoxSides x y (ls ++ [w]) = countBoxSides x y ls := by
  unfold countBoxSides
  rw [show lineToKey (x, y, x + 1, y) = (x, y, x + 1, y) from normalizeLine_horiz,
    show lineToKey (x, y + 1, x + 1, y + 1) = (x, y + 1, x + 1, y + 1) from normalizeLine_horiz,
    show lineToKey (x, y, x, y + 1) = (x, y, x, y + 1) from normalizeLine_vert,
    show lineToKey (x + 1, y, x + 1, y + 1) = (x + 1, y, x + 1, y + 1) from normalizeLine_vert]
  simp only [boxSides, List.mem_cons, List.mem_singleton, List.not_mem_nil, or_false, not_or] at h
  obtain ⟨h1, h2, h3, h4⟩ := h
  rw [contains_append_single_ne (fun hc => h1 hc.symm),
    contains_append_single_ne (fun hc => h2 hc.symm),
    contains_append_single_ne (fun hc => h3 hc.symm),
    contains_append_single_ne (fun hc => h4 hc.symm)]

theorem findCompletedBoxes_horiz {x y g : Int} {ls : List Line} :
    findCompletedBoxes (x, y, x + 1, y) g ls =
      (if y > 0 ∧ isBoxComplete x (y - 1) ls = true then [(x, y - 1)] else []) ++
      (if y < g - 1 ∧ isBoxComplete x y ls = true then [(x, y)] else []) := by
  unfold findCompletedBoxes
  rw [normalizeLine_horiz]
  dsimp only
  rw [if_neg (show ¬(x = x + 1) by omega), if_pos rfl]
  rw [min_eq_left (by omega : x ≤ x + 1)]
  rfl

theorem findCompletedBoxes_vert {x y g : Int} {ls : List Line} :
    findCompletedBoxes (x, y, x, y + 1) g ls =
      (if x > 0 ∧ isBoxComplete (x - 1) y ls = true then [(x - 1, y)] else []) ++
      (if x < g - 1 ∧ isBoxComplete x y ls = true then [(x, y)] else []) := by
  unfold findCompletedBoxes
  rw [normalizeLine_vert]
  dsimp only
  rw [if_pos rfl, if_neg (show ¬(y = y + 1) by omega)]
  rw [min_eq_left (by omega : y ≤ y + 1)]
  simp

theorem line_eq_iff {a b c d e f h i : Int} :
    ((a, b, c, d) : Line) = (e, f, h, i) ↔ a = e ∧ b = f ∧ c = h ∧ d = i := by
  constructor
  · intro heq
    exact ⟨congrArg (fun q : Line => q.1) heq, congrArg (fun q : Line => q.2.1) heq,
      congrArg (fun q : Line => q.2.2.1) heq, congrArg (fun q : Line => q.2.2.2) heq⟩
  · rintro ⟨rfl, rfl, rfl, rfl⟩
    rfl

theorem box_eq_iff {a b e f : Int} : ((a, b) : Box) = (e, f) ↔ a = e ∧ b = f := by
  constructor
  · intro heq
    exact ⟨congrArg (fun q : Box => q.1) heq, congrArg (fun q : Box => q.2) heq⟩
  · rintro ⟨rfl, rfl⟩
    rfl

theorem mem_boxSides_iff {x y : Int} {n : Line} :
    n ∈ boxSides x y ↔
      n = (x, y, x + 1, y) ∨ n = (x, y + 1, x + 1, y + 1) ∨ n = (x, y, x, y + 1) ∨
        n = (x + 1, y, x + 1, y + 1) := by
  unfold boxSides
  simp only [List.mem_cons, List.mem_singleton, List.not_mem_nil, or_false]

/-- For a generated (valid, normalized) line, the boxes found by
findCompletedBoxes are exactly the in-grid boxes having the line as a
side that are complete in the given set. -/
theorem mem_findCompletedBoxes {g : Int} {n : Line} (hn : n ∈ genLines g) {ls : List Line}
    {b : Box} :
    b ∈ findCompletedBoxes n g ls ↔
      n ∈ boxSides b.1 b.2 ∧ b ∈ genBoxes g ∧ isBoxComplete b.1 b.2 ls = true := by
  obtain ⟨bx, byy⟩ := b
  unfold genLines at hn
  rw [List.mem_append] at hn
  rcases hn with hh | hv
  · rw [mem_genHorizontal] at hh
    obtain ⟨x, y, rfl, hx0, hx1, hy0, hy1⟩ := hh
    rw [findCompletedBoxes_horiz, List.mem_append]
    constructor
    · rintro (hmem | hmem)
      · by_cases hc : y > 0 ∧ isBoxComplete x (y - 1) ls = true
        · rw [if_pos hc, List.mem_singleton, box_eq_iff] at hmem
          obtain ⟨rfl, rfl⟩ := hmem
          refine ⟨?_, ?_, hc.2⟩
          · rw [mem_boxSides_iff]
            right; left
            rw [line_eq_iff]
            exact ⟨rfl, by omega, rfl, by omega⟩
          · rw [mem_genBoxes]
            exact ⟨by omega, by omega, by omega, by omega⟩
        · rw [if_neg hc] at hmem
          simp at hmem
      · by_cases hc : y < g - 1 ∧ isBoxComplete x y ls = true
        · rw [if_pos hc, List.mem_singleton, box_eq_iff] at hmem
          obtain ⟨rfl, rfl⟩ := hmem
          refine ⟨?_, ?_, hc.2⟩
          · rw [mem_boxSides_iff]
            left
            rfl
          · rw [mem_genBoxes]
            exact ⟨by omega, by omega, by omega, by omega⟩
        · rw [if_neg hc] at hmem
          simp at hmem
    · rintro ⟨hside, hbox, hcomp⟩
      rw [mem_genBoxes] at hbox
      obtain ⟨hb1, hb2, hb3, hb4⟩ := hbox
      rw [mem_boxSides_iff] at hside
      rcases hside with heq | heq | heq | heq <;> rw [line_eq_iff] at heq <;>
        obtain ⟨e1, e2, e3, e4⟩ := heq
      · obtain rfl : bx = x := e1.symm
        obtain rfl : byy = y := e2.symm
        right
        rw [if_pos ⟨by omega, hcomp⟩]
        exact List.mem_singleton_self _
      · obtain rfl : bx = x := e1.symm
        obtain rfl : y = byy + 1 := e2
        left
        rw [show byy + 1 - 1 = byy from by omega]
        rw [if_pos ⟨by omega, hcomp⟩]
        exact List.mem_singleton_self _
      · exfalso; omega
      · exfalso; omega
  · rw [mem_genVertical] at hv
    obtain ⟨x, y, rfl, hx0, hx1, hy0, hy1⟩ := hv
    rw [findCompletedBoxes_vert, List.mem_append]
    constructor
    · rintro (hmem | hmem)
      · by_cases hc : x > 0 ∧ isBoxComplete (x - 1) y ls = true
        · rw [if_pos hc, List.mem_singleton, box_eq_iff] at hmem
          obtain ⟨rfl, rfl⟩ := hmem
          refine ⟨?_, ?_, hc.2⟩
          · rw [mem_boxSides_iff]
            right; right; right
            rw [line_eq_iff]
            exact ⟨by omega, rfl, by omega, rfl⟩
          · rw [mem_genBoxes]
            exact ⟨by omega, by omega, by omega, by omega⟩
        · rw [if_neg hc] at hmem
          simp at hmem
      · by_cases hc : x < g - 1 ∧ isBoxComplete x y ls = true
        · rw [if_pos hc, List.mem_singleton, box_eq_iff] at hmem
          obtain ⟨rfl, rfl⟩ := hmem
          refine ⟨?_, ?_, hc.2⟩
          · rw [mem_boxSides_iff]
            right; right; left
            rfl
          · rw [mem_genBoxes]
            exact ⟨by omega, by omega, by omega, by omega⟩
        · rw [if_neg hc] at hmem
          simp at hmem
    · rintro ⟨hside, hbox, hcomp⟩
      rw [mem_genBoxes] at hbox
      obtain ⟨hb1, hb2, hb3, hb4⟩ := hbox
      rw [mem_boxSides_iff] at hside
      rcases hside with heq | heq | heq | heq <;> rw [line_eq_iff] at heq <;>
        obtain ⟨e1, e2, e3, e4⟩ := heq
      · exfalso; omega
      · exfalso; omega
      · obtain rfl : bx = x := e1.symm
        obtain rfl : byy = y := e2.symm
        right
        rw [if_pos ⟨by omega, hcomp⟩]
        exact List.mem_singleton_self _
      · obtain rfl : x = bx + 1 := e1
        obtain rfl : byy = y := e2.symm
        left
        rw [show bx + 1 - 1 = bx from by omega]
        rw [if_pos ⟨by omega, hcomp⟩]
        exact List.mem_singleton_self _

/-- findCompletedBoxes returns no duplicate and at most two boxes. -/
theorem findCompletedBoxes_nodup_len {g : Int} {n : Line} (hn : n ∈ genLines g)
    (ls : List Line) :
    (findCompletedBoxes n g ls).Nodup ∧ (findCompletedBoxes n g ls).length ≤ 2 := by
  unfold genLines at hn
  rw [List.mem_append] at hn
  rcases hn with hh | hv
  · rw [mem_genHorizontal] at hh
    obtain ⟨x, y, rfl, hx0, hx1, hy0, hy1⟩ := hh
    rw [findCompletedBoxes_horiz]
    split_ifs with h1 h2 h2
    · refine ⟨?_, by simp⟩
      show List.Nodup [(x, y - 1), (x, y)]
      refine List.nodup_cons.mpr ⟨?_, List.nodup_singleton _⟩
      intro hmem
      have h3 : y - 1 = y :=
        congrArg (fun q : Box => q.2) (List.mem_singleton.mp hmem)
      omega
    · simp
    · simp
    · simp
  · rw [mem_genVertical] at hv
    obtain ⟨x, y, rfl, hx0, hx1, hy0, hy1⟩ := hv
    rw [findCompletedBoxes_vert]
    split_ifs with h1 h2 h2
    · refine ⟨?_, by simp⟩
      show List.Nodup [(x - 1, y), (x, y)]
      refine List.nodup_cons.mpr ⟨?_, List.nodup_singleton _⟩
      intro hmem
      have h3 : x - 1 = x :=
        congrArg (fun q : Box => q.1) (List.mem_singleton.mp hmem)
      omega
    · simp
    · simp
    · simp

/-- Sides of an in-grid box are generated lines. -/
theorem boxSides_mem_genLines {g : Int} {b : Box} (hb : b ∈ genBoxes g) {e : Line}
    (he : e ∈ boxSides b.1 b.2) : e ∈ genLines g := by
  obtain ⟨x, y⟩ := b
  rw [mem_genBoxes] at hb
  obtain ⟨h1, h2, h3, h4⟩ := hb
  rw [mem_boxSides_iff] at he
  unfold genLines
  rw [List.mem_append]
  rcases he with rfl | rfl | rfl | rfl
  · left; rw [mem_genHorizontal]; exact ⟨x, y, rfl, by omega, by omega, by omega, by omega⟩
  · left; rw [mem_genHorizontal]; exact ⟨x, y + 1, rfl, by omega, by omega, by omega, by omega⟩
  · right; rw [mem_genVertical]; exact ⟨x, y, rfl, by omega, by omega, by omega, by omega⟩
  · right; rw [mem_genVertical]; exact ⟨x + 1, y, rfl, by omega, by omega, by omega, by omega⟩

/-- A complete box has all four side counters set. -/
theorem countBoxSides_four {x y : Int} {ls : List Line}
    (hcomp : isBoxComplete x y ls = true) : countBoxSides x y ls = 4 := by
  rw [isBoxComplete_iff] at hcomp
  unfold countBoxSides
  rw [show lineToKey (x, y, x + 1, y) = (x, y, x + 1, y) from normalizeLine_horiz,
    show lineToKey (x, y + 1, x + 1, y + 1) = (x, y + 1, x + 1, y + 1) from normalizeLine_horiz,
    show lineToKey (x, y, x, y + 1) = (x, y, x, y + 1) from normalizeLine_vert,
    show lineToKey (x + 1, y, x + 1, y + 1) = (x + 1, y, x + 1, y + 1) from normalizeLine_vert]
  rw [if_pos (contains_iff_mem.mpr (hcomp _ (by rw [mem_boxSides_iff]; left; rfl))),
    if_pos (contains_iff_mem.mpr (hcomp _ (by rw [mem_boxSides_iff]; right; left; rfl))),
    if_pos (contains_iff_mem.mpr (hcomp _ (by rw [mem_boxSides_iff]; right; right; left; rfl))),
    if_pos (contains_iff_mem.mpr (hcomp _
      (by rw [mem_boxSides_iff]; right; right; right; rfl)))]

/-- Inserting an undrawn side of the box raises its counter by one. -/
theorem countBoxSides_append_side {x y : Int} {ls : List Line} {n : Line}
    (hn : n ∈ boxSides x y) (hnot : n ∉ ls) :
    countBoxSides x y (ls ++ [n]) = countBoxSides x y ls + 1 := by
  have hself : ∀ m : Line, m ∈ ls ++ [m] := fun m =>
    List.mem_append_right _ (List.mem_singleton_self m)
  rw [mem_boxSides_iff] at hn
  unfold countBoxSides
  rw [show lineToKey (x, y, x + 1, y) = (x, y, x + 1, y) from normalizeLine_horiz,
    show lineToKey (x, y + 1, x + 1, y + 1) = (x, y + 1, x + 1, y + 1) from normalizeLine_horiz,
    show lineToKey (x, y, x, y + 1) = (x, y, x, y + 1) from normalizeLine_vert,
    show lineToKey (x + 1, y, x + 1, y + 1) = (x + 1, y, x + 1, y + 1) from normalizeLine_vert]
  rcases hn with rfl | rfl | rfl | rfl
  · rw [contains_append_single_ne (a := (x, y + 1, x + 1, y + 1))
        (fun hc => by rw [line_eq_iff] at hc; omega),
      contains_append_single_ne (a := (x, y, x, y + 1))
        (fun hc => by rw [line_eq_iff] at hc; omega),
      contains_append_single_ne (a := (x + 1, y, x + 1, y + 1))
        (fun hc => by rw [line_eq_iff] at hc; omega),
      show ((ls ++ [(x, y, x + 1, y)]).contains (x, y, x + 1, y)) = true from
        contains_iff_mem.mpr (hself _),
      show (ls.contains (x, y, x + 1, y)) = false from
        Bool.eq_false_iff.mpr (fun hc => hnot (contains_iff_mem.mp hc))]
    simp only [eq_self_iff_true, if_true, Bool.false_eq_true, if_false]
    try omega
  · rw [contains_append_single_ne (a := (x, y, x + 1, y))
        (fun hc => by rw [line_eq_iff] at hc; omega),
      contains_append_single_ne (a := (x, y, x, y + 1))
        (fun hc => by rw [line_eq_iff] at hc; omega),
      contains_append_single_ne (a := (x + 1, y, x + 1, y + 1))
        (fun hc => by rw [line_eq_iff] at hc; omega),
      show ((ls ++ [(x, y + 1, x + 1, y + 1)]).contains (x, y + 1, x + 1, y + 1)) = true from
        contains_iff_mem.mpr (hself _),
      show (ls.contains (x, y + 1, x + 1, y + 1)) = false from
        Bool.eq_false_iff.mpr (fun hc => hnot (contains_iff_mem.mp hc))]
    simp only [eq_self_iff_true, if_true, Bool.false_eq_true, if_false]
    try omega
  · rw [contains_append_single_ne (a := (x, y, x + 1, y))
        (fun hc => by rw [line_eq_iff] at hc; omega),
      contains_append_single_ne (a := (x, y + 1, x + 1, y + 1))
        (fun hc => by rw [line_eq_iff] at hc; omega),
      contains_append_single_ne (a := (x + 1, y, x + 1, y + 1))
        (fun hc => by rw [line_eq_iff] at hc; omega),
      show ((ls ++ [(x, y, x, y + 1)]).contains (x, y, x, y + 1)) = true from
        contains_iff_mem.mpr (hself _),
      show (ls.contains (x, y, x, y + 1)) = false from
        Bool.eq_false_iff.mpr (fun hc => hnot (contains_iff_mem.mp hc))]
    simp only [eq_self_iff_true, if_true, Bool.false_eq_true, if_false]
    try omega
  · rw [contains_append_single_ne (a := (x, y, x + 1, y))
        (fun hc => by rw [line_eq_iff] at hc; omega),
      contains_append_single_ne (a := (x, y + 1, x + 1, y + 1))
        (fun hc => by rw [line_eq_iff] at hc; omega),
      contains_append_single_ne (a := (x, y, x, y + 1))
        (fun hc => by rw [line_eq_iff] at hc; omega),
      show ((ls ++ [(x + 1, y, x + 1, y + 1)]).contains (x + 1, y, x + 1, y + 1)) = true from
        contains_iff_mem.mpr (hself _),
      show (ls.contains (x + 1, y, x + 1, y + 1)) = false from
        Bool.eq_false_iff.mpr (fun hc => hnot (contains_iff_mem.mp hc))]
    simp only [eq_self_iff_true, if_true, Bool.false_eq_true, if_false]
    try omega

/-- A box completed by inserting one of its sides had exactly three
sides before. -/
theorem countBoxSides_three_of {x y : Int} {ls : List Line} {n : Line}
    (hn : n ∈ boxSides x y) (hnot : n ∉ ls)
    (hcomp : isBoxComplete x y (ls ++ [n]) = true) :
    countBoxSides x y ls = 3 := by
  have h4 := countBoxSides_four hcomp
  have h1 := countBoxSides_append_side hn hnot
  omega

/-- A box missing one of its sides is not complete. -/
theorem isBoxComplete_false_of {x y : Int} {ls : List Line} {n : Line}
    (hn : n ∈ boxSides x y) (hnot : n ∉ ls) : isBoxComplete x y ls = false := by
  rw [Bool.eq_false_iff]
  intro hc
  exact hnot (isBoxComplete_iff.mp hc n hn)

theorem nodup_length_le {α : Type} [DecidableEq α] {l lfull : List α} (hnd : l.Nodup)
    (hsub : ∀ a ∈ l, a ∈ lfull) : l.length ≤ lfull.length := by
  classical
  have h1 : l.toFinset.card = l.length := List.toFinset_card_of_nodup hnd
  have h2 : l.toFinset ⊆ lfull.toFinset := by
    intro a ha
    rw [List.mem_toFinset] at ha ⊢
    exact hsub a ha
  have h3 : lfull.toFinset.card ≤ lfull.length := lfull.toFinset_card_le
  have h4 := Finset.card_le_card h2
  omega

/-- Pigeonhole: a duplicate-free sublist of a duplicate-free list of the
same length contains every element. -/
theorem nodup_full {α : Type} [DecidableEq α] {l lfull : List α} (hnd : l.Nodup)
    (hndf : lfull.Nodup)
    (hsub : ∀ a ∈ l, a ∈ lfull) (hlen : lfull.length ≤ l.length) :
    ∀ a ∈ lfull, a ∈ l := by
  classical
  have h1 : l.toFinset.card = l.length := List.toFinset_card_of_nodup hnd
  have h1f : lfull.toFinset.card = lfull.length := List.toFinset_card_of_nodup hndf
  have h2 : l.toFinset ⊆ lfull.toFinset := by
    intro a ha
    rw [List.mem_toFinset] at ha ⊢
    exact hsub a ha
  have h3 : lfull.toFinset = l.toFinset := by
    refine (Finset.eq_of_subset_of_card_le h2 ?_).symm
    omega
  intro a ha
  have : a ∈ l.toFinset := by rw [← h3, List.mem_toFinset]; exact ha
  rwa [List.mem_toFinset] at this

/-- The invariant holds for the initial state when the configuration is
nondegenerate. -/
theorem inv_init {g : Int} {pc : Nat} (hg : 2 ≤ g) (hpc : 1 ≤ pc) :
    Inv g pc (createInitialState g pc) := by
  unfold createInitialState
  refine ⟨rfl, rfl, by simp, by simpa using hpc, rfl, List.nodup_nil, by simp, ?_, by simp,
    by simp, by simp, by simp, ?_⟩
  · have htot : 0 < totalPossibleLines g := by
      unfold totalPossibleLines
      nlinarith
    simp only [List.length_nil, Nat.cast_zero]
    rw [eq_comm, decide_eq_false_iff_not]
    omega
  · intro b hb hcomp
    rw [isBoxComplete_iff] at hcomp
    have := hcomp (b.1, b.2, b.1 + 1, b.2) (by rw [mem_boxSides_iff]; left; rfl)
    simp at this

/-- applyMove preserves the invariant. -/
theorem inv_step {g : Int} {pc : Nat} {s s' : GameState} {l : Line} {p : Nat}
    (inv : Inv g pc s) (hpc : 1 ≤ pc) (h : applyMove s l p = some s') : Inv g pc s' := by
  obtain ⟨hval, hgo, hcur, hdup⟩ := applyMove_some_pre h
  obtain ⟨f1, f2, f3, f4, f5, f6, f7, f8, f9, f10⟩ := applyMove_some_fields h
  have hvg : isValidLine l g = true := by rw [← inv.grid]; exact hval
  have hmemgen : normalizeLine l ∈ genLines g := normalize_mem_genLines hvg
  have hplen : p < s.scores.length := by
    rw [inv.scoresLen, ← hcur]
    exact inv.cur
  refine ⟨?_, ?_, ?_, ?_, ?_, ?_, ?_, ?_, ?_, ?_, ?_, ?_, ?_⟩
  · rw [f1]; exact inv.grid
  · rw [f2]; exact inv.players
  · rw [f7]
    unfold applyParts
    rw [assignLoop_scores_length]
    exact inv.scoresLen
  · rw [f9]
    have hp : p < pc := by rw [← hcur]; exact inv.cur
    split_ifs
    · exact hp
    · exact hp
    · rw [← inv.players] at hpc ⊢
      exact Nat.mod_lt _ (by omega)
  · rw [f4, f5, inv.linesEq]
  · rw [f5]
    refine inv.nodup.append (List.nodup_singleton _) ?_
    intro a ha hb
    rw [List.mem_singleton] at hb
    subst hb
    exact hdup ha
  · rw [f5]
    intro a ha
    rcases List.mem_append.mp ha with h1 | h1
    · exact inv.linesMem a h1
    · rw [List.mem_singleton] at h1
      subst h1
      exact hmemgen
  · have hl : s.lines.length = s.lineSet.length := by rw [inv.linesEq]
    rw [f8, f5, inv.grid, hl]
    simp
  · have hsum := @assignLoop_scores_sum p
      (findCompletedBoxes (normalizeLine l) s.gridSize (s.lineSet ++ [normalizeLine l]))
      s.boxes s.scores false hplen
    have hbase := inv.sumScores
    rw [f7, f6]
    unfold applyParts
    omega
  · rw [f6]
    unfold applyParts
    exact assignLoop_keys_nodup inv.keysNodup
  · rw [f6]
    unfold applyParts
    obtain ⟨extra, he, hex⟩ := @assignLoop_boxes_extra p
      (findCompletedBoxes (normalizeLine l) s.gridSize (s.lineSet ++ [normalizeLine l]))
      s.boxes s.scores false
    rw [he]
    intro e hme
    rcases List.mem_append.mp hme with h1 | h1
    · exact inv.boxesMem e h1
    · have hks := (hex e h1).1
      rw [inv.grid] at hks
      exact ((mem_findCompletedBoxes hmemgen).mp hks).2.1
  · rw [f6, f5]
    unfold applyParts
    obtain ⟨extra, he, hex⟩ := @assignLoop_boxes_extra p
      (findCompletedBoxes (normalizeLine l) s.gridSize (s.lineSet ++ [normalizeLine l]))
      s.boxes s.scores false
    rw [he]
    intro e hme
    rcases List.mem_append.mp hme with h1 | h1
    · exact isBoxComplete_append (inv.ownerComplete e h1)
    · have hks := (hex e h1).1
      rw [inv.grid] at hks
      exact ((mem_findCompletedBoxes hmemgen).mp hks).2.2
  · intro b hb hcomp
    rw [f5] at hcomp
    rw [f6]
    unfold applyParts
    rw [inv.grid]
    by_cases hold : isBoxComplete b.1 b.2 s.lineSet = true
    · have hs := inv.completeOwner b hb hold
      rw [Option.isSome_iff_exists] at hs ⊢
      obtain ⟨v, hv⟩ := hs
      exact ⟨v, assignLoop_lookup_mono hv⟩
    · have hnotall : ∃ e ∈ boxSides b.1 b.2, e ∉ s.lineSet := by
        by_contra hc
        push_neg at hc
        exact hold (isBoxComplete_iff.mpr hc)
      obtain ⟨e, he2, hen⟩ := hnotall
      have hein : e ∈ s.lineSet ++ [normalizeLine l] := isBoxComplete_iff.mp hcomp e he2
      have heq : e = normalizeLine l := by
        rcases List.mem_append.mp hein with h1 | h1
        · exact absurd h1 hen
        · exact List.mem_singleton.mp h1
      subst heq
      have hks : b ∈ findCompletedBoxes (normalizeLine l) g (s.lineSet ++ [normalizeLine l]) :=
        (mem_findCompletedBoxes hmemgen).mpr ⟨he2, hb, hcomp⟩
      cases hlk : s.boxes.lookup b with
      | none =>
        rw [Option.isSome_iff_exists]
        exact ⟨p, assignLoop_lookup_new hks hlk⟩
      | some v =>
        rw [Option.isSome_iff_exists]
        exact ⟨v, assignLoop_lookup_mono hlk⟩

/-- Every reachable state of a nondegenerate configuration satisfies the
invariant. -/
theorem reachable_inv {g : Int} {pc : Nat} {s : GameState}
    (hr : Reachable g pc s) (hg : 2 ≤ g) (hpc : 1 ≤ pc) : Inv g pc s := by
  induction hr with
  | init => exact inv_init hg hpc
  | step hr2 hstep ih => exact inv_step ih hpc hstep

theorem nodup_same_mem_length {α : Type} [DecidableEq α] {l1 l2 : List α}
    (h1 : l1.Nodup) (h2 : l2.Nodup) (hm : ∀ a, a ∈ l1 ↔ a ∈ l2) :
    l1.length = l2.length := by
  classical
  have e1 : l1.toFinset.card = l1.length := List.toFinset_card_of_nodup h1
  have e2 : l2.toFinset.card = l2.length := List.toFinset_card_of_nodup h2
  have e3 : l1.toFinset = l2.toFinset := by
    ext a
    rw [List.mem_toFinset, List.mem_toFinset]
    exact hm a
  rw [e3] at e1
  omega

theorem genBoxes_nodup (g : Int) : (genBoxes g).Nodup := by
  unfold genBoxes
  rw [List.nodup_flatMap]
  constructor
  · intro y _
    exact (intRange_nodup _).map fun a b h => congrArg (fun q : Box => q.1) h
  · refine (intRange_nodup (g - 1)).imp ?_
    intro y1 y2 hne
    intro a ha1 ha2
    rw [List.mem_map] at ha1 ha2
    obtain ⟨x1, -, rfl⟩ := ha1
    obtain ⟨x2, -, heq⟩ := ha2
    exact hne ((congrArg (fun q : Box => q.2) heq).symm)

/-! ### Consequences of the invariant -/

theorem inv_lineSet_le {g : Int} {pc : Nat} {s : GameState} (inv : Inv g pc s) :
    s.lineSet.length ≤ (genLines g).length :=
  nodup_length_le inv.nodup inv.linesMem

/-- With a nondegenerate grid, gameOver is exactly "the drawn list has
full length". -/
theorem inv_gameOver_iff {g : Int} {pc : Nat} {s : GameState} (inv : Inv g pc s)
    (hg : 2 ≤ g) :
    s.gameOver = true ↔ (s.lineSet.length : Int) = totalPossibleLines g := by
  rw [inv.over, decide_eq_true_eq]
  have h1 := inv_lineSet_le inv
  have h2 := genLines_length (g := g) (by omega)
  omega

/-- At full length every generated line is drawn. -/
theorem inv_full_lines {g : Int} {pc : Nat} {s : GameState} (inv : Inv g pc s)
    (hg : 2 ≤ g) (hfull : (s.lineSet.length : Int) = totalPossibleLines g) :
    ∀ a ∈ genLines g, a ∈ s.lineSet := by
  have h2 := genLines_length (g := g) (by omega)
  exact nodup_full inv.nodup (genLines_nodup g) inv.linesMem (by omega)

/-- At full length every in-grid box is complete. -/
theorem inv_full_boxes {g : Int} {pc : Nat} {s : GameState} (inv : Inv g pc s)
    (hg : 2 ≤ g) (hfull : (s.lineSet.length : Int) = totalPossibleLines g) :
    ∀ b ∈ genBoxes g, isBoxComplete b.1 b.2 s.lineSet = true := by
  intro b hb
  rw [isBoxComplete_iff]
  intro e he
  exact inv_full_lines inv hg hfull e (boxSides_mem_genLines hb he)

/-- Membership in getAvailableLines under the invariant. -/
theorem inv_mem_avail {g : Int} {pc : Nat} {s : GameState} (inv : Inv g pc s) {a : Line} :
    a ∈ getAvailableLines s ↔ a ∈ genLines g ∧ a ∉ s.lineSet := by
  unfold getAvailableLines
  rw [inv.grid, List.mem_filter]
  constructor
  · rintro ⟨h1, h2⟩
    refine ⟨h1, ?_⟩
    intro hmem
    have hnorm : lineToKey a = a := (mem_genLines.mp h1).2
    rw [hnorm] at h2
    rw [Bool.not_eq_eq_eq_not, Bool.not_true, Bool.eq_false_iff] at h2
    exact h2 (contains_iff_mem.mpr hmem)
  · rintro ⟨h1, h2⟩
    refine ⟨h1, ?_⟩
    have hnorm : lineToKey a = a := (mem_genLines.mp h1).2
    rw [hnorm, Bool.not_eq_eq_eq_not, Bool.not_true, Bool.eq_false_iff]
    intro hc
    exact h2 (contains_iff_mem.mp hc)

theorem avail_nodup (s : GameState) : (getAvailableLines s).Nodup := by
  unfold getAvailableLines
  exact (genLines_nodup s.gridSize).filter _

/-- Under the invariant, gameOver is exactly "no available move". -/
theorem inv_gameOver_iff_avail {g : Int} {pc : Nat} {s : GameState} (inv : Inv g pc s)
    (hg : 2 ≤ g) :
    s.gameOver = true ↔ getAvailableLines s = [] := by
  rw [inv_gameOver_iff inv hg]
  constructor
  · intro hfull
    have hall := inv_full_lines inv hg hfull
    rw [List.eq_nil_iff_forall_not_mem]
    intro a ha
    rw [inv_mem_avail inv] at ha
    exact ha.2 (hall a ha.1)
  · intro hnil
    have hsub : ∀ a ∈ genLines g, a ∈ s.lineSet := by
      intro a ha
      by_contra hc
      have : a ∈ getAvailableLines s := (inv_mem_avail inv).mpr ⟨ha, hc⟩
      rw [hnil] at this
      simp at this
    have h1 := nodup_length_le (genLines_nodup g) hsub
    have h2 := inv_lineSet_le inv
    have h3 := genLines_length (g := g) (by omega)
    omega

/-- Under the invariant, every available move by the current player
succeeds when the game is not over. -/
theorem inv_avail_succeeds {g : Int} {pc : Nat} {s : GameState} (inv : Inv g pc s)
    (hgo : s.gameOver = false) {a : Line} (ha : a ∈ getAvailableLines s) :
    (applyMove s a s.currentPlayer).isSome = true := by
  rw [inv_mem_avail inv] at ha
  obtain ⟨hgen, hnot⟩ := ha
  obtain ⟨hval, hnorm⟩ := mem_genLines.mp hgen
  rw [applyMove_isSome_iff]
  refine ⟨by rw [inv.grid]; exact hval, hgo, rfl, ?_⟩
  rw [hnorm]
  exact hnot

/-! ### determineWinner -/

theorem foldl_max_facts (l : List Nat) (a : Nat) :
    (∀ x ∈ l, x ≤ l.foldl Nat.max a) ∧ a ≤ l.foldl Nat.max a ∧
      (l.foldl Nat.max a ∈ l ∨ l.foldl Nat.max a = a) := by
  induction l generalizing a with
  | nil => exact ⟨by simp, le_refl a, Or.inr rfl⟩
  | cons b t ih =>
    obtain ⟨ih1, ih2, ih3⟩ := ih (a := Nat.max a b)
    rw [List.foldl_cons]
    refine ⟨?_, ?_, ?_⟩
    · intro x hx
      rcases List.mem_cons.mp hx with rfl | hmem
      · exact le_trans (Nat.le_max_right a x) ih2
      · exact ih1 x hmem
    · exact le_trans (Nat.le_max_left a b) ih2
    · rcases ih3 with hmem | heq
      · exact Or.inl (List.mem_cons_of_mem _ hmem)
      · rcases Nat.le_total a b with hab | hab
        · left
          have hmb : a.max b = b := Nat.max_eq_right hab
          rw [heq, hmb]
          exact List.mem_cons_self _ _
        · right
          have hmb : a.max b = a := Nat.max_eq_left hab
          rw [heq, hmb]

theorem two_le_count_of_two_getD {l : List Nat} {x : Nat} {i j : Nat}
    (hi : i < l.length) (hj : j < l.length) (hij : i ≠ j)
    (hvi : l.getD i 0 = x) (hvj : l.getD j 0 = x) : 2 ≤ l.count x := by
  induction l generalizing i j with
  | nil => simp at hi
  | cons a t ih =>
    have hcnt : (a :: t).count x = t.count x + if a = x then 1 else 0 := by
      simp [List.count_cons]
    rcases i with _ | i2 <;> rcases j with _ | j2
    · omega
    · simp only [List.getD_cons_zero] at hvi
      simp only [List.getD_cons_succ] at hvj
      rw [if_pos hvi] at hcnt
      have hmem : x ∈ t := by
        rw [← hvj]
        rw [List.getD_eq_getElem t 0 (by simpa using hj)]
        exact List.getElem_mem _
      have := List.count_pos_iff.mpr hmem
      omega
    · simp only [List.getD_cons_zero] at hvj
      simp only [List.getD_cons_succ] at hvi
      rw [if_pos hvj] at hcnt
      have hmem : x ∈ t := by
        rw [← hvi]
        rw [List.getD_eq_getElem t 0 (by simpa using hi)]
        exact List.getElem_mem _
      have := List.count_pos_iff.mpr hmem
      omega
    · simp only [List.getD_cons_succ] at hvi hvj
      have := ih (by simpa using hi) (by simpa using hj) (by omega) hvi hvj
      omega

theorem exists_two_getD_of_two_le_count {l : List Nat} {x : Nat} (h : 2 ≤ l.count x) :
    ∃ i j, i < l.length ∧ j < l.length ∧ i ≠ j ∧ l.getD i 0 = x ∧ l.getD j 0 = x := by
  induction l with
  | nil => simp at h
  | cons a t ih =>
    by_cases hax : a = x
    · subst hax
      have hcnt : (a :: t).count a = t.count a + 1 := by simp [List.count_cons]
      have h1 : 1 ≤ t.count a := by omega
      have hmem : a ∈ t := List.count_pos_iff.mp (by omega)
      obtain ⟨j, hj, hvj⟩ := List.mem_iff_getElem.mp hmem
      refine ⟨0, j + 1, by simp, by simpa using hj, by omega, by simp, ?_⟩
      simp only [List.getD_cons_succ]
      rw [List.getD_eq_getElem t 0 hj]
      exact hvj
    · have hcnt : (a :: t).count x = t.count x := by simp [List.count_cons, hax]
      obtain ⟨i, j, hi, hj, hij, hvi, hvj⟩ := ih (by omega)
      exact ⟨i + 1, j + 1, by simpa using hi, by simpa using hj, by omega,
        by simpa using hvi, by simpa using hvj⟩

/-- determineWinner satisfies the spec-side description on any nonempty
score vector. -/
theorem determineWinner_spec (scores : List Nat) (hne : scores ≠ []) :
    winnerSpec scores (determineWinner scores) := by
  unfold determineWinner
  rw [if_neg (by simpa using hne)]
  obtain ⟨hmax, -, hmem0⟩ := foldl_max_facts scores 0
  have hmem : scores.foldl Nat.max 0 ∈ scores := by
    rcases hmem0 with hm | hm
    · exact hm
    · rcases scores with _ | ⟨a, t⟩
      · exact absurd rfl hne
      · have h0 := hmax a (List.mem_cons_self a t)
        rw [hm]
        have ha0 : a = 0 := by omega
        rw [← ha0]
        exact List.mem_cons_self a t
  have hboundD : ∀ m < scores.length, scores.getD m 0 ≤ scores.foldl Nat.max 0 := by
    intro m hm
    rw [List.getD_eq_getElem scores 0 hm]
    exact hmax _ (List.getElem_mem _)
  by_cases hcnt : scores.count (scores.foldl Nat.max 0) > 1
  · rw [if_pos hcnt]
    obtain ⟨i, j, hi, hj, hij, hvi, hvj⟩ := exists_two_getD_of_two_le_count hcnt
    unfold winnerSpec
    refine ⟨i, j, hi, hj, hij, ?_, ?_⟩
    · intro m hm
      rw [hvi]
      exact hboundD m hm
    · rw [hvi, hvj]
  · rw [if_neg hcnt]
    unfold winnerSpec
    have hilt : scores.indexOf (scores.foldl Nat.max 0) < scores.length :=
      List.indexOf_lt_length.mpr hmem
    have hidx : scores.getD (scores.indexOf (scores.foldl Nat.max 0)) 0
        = scores.foldl Nat.max 0 := by
      rw [List.getD_eq_getElem scores 0 hilt]
      exact List.getElem_indexOf hilt
    refine ⟨by omega, ?_, ?_⟩
    · simpa using hilt
    · intro j hj hne2
      have hle := hboundD j hj
      rcases Nat.lt_or_ge (scores.getD j 0) (scores.foldl Nat.max 0) with hlt | hge
      · rw [show ((scores.indexOf (scores.foldl Nat.max 0) : Nat) : Int).toNat
          = scores.indexOf (scores.foldl Nat.max 0) from by simp] at hne2 ⊢
        rw [hidx]
        exact hlt
      · exfalso
        have heq : scores.getD j 0 = scores.foldl Nat.max 0 := by omega
        have hne3 : j ≠ scores.indexOf (scores.foldl Nat.max 0) := by
          intro hc
          apply hne2
          rw [hc]
          simp
        have := two_le_count_of_two_getD hj hilt hne3 heq hidx
        omega

theorem lookup_isSome_iff {boxes : List (Box × Nat)} {k : Box} :
    (boxes.lookup k).isSome = true ↔ k ∈ boxes.map Prod.fst := by
  rw [Option.isSome_iff_ne_none, ne_eq, lookup_eq_none_iff, not_not]

/-- Under the invariant the owned-box count is the size of the boxes
map. -/
theorem inv_ownedBoxCount {g : Int} {pc : Nat} {s : GameState} (inv : Inv g pc s) :
    ownedBoxCount s = s.boxes.length := by
  unfold ownedBoxCount
  rw [inv.grid]
  have h1 : ((genBoxes g).filter fun b => (s.boxes.lookup b).isSome).length
      = (s.boxes.map Prod.fst).length := by
    refine nodup_same_mem_length ((genBoxes_nodup g).filter _) inv.keysNodup ?_
    intro a
    rw [List.mem_filter]
    constructor
    · rintro ⟨h2, h3⟩
      exact lookup_isSome_iff.mp h3
    · intro hmem
      refine ⟨?_, lookup_isSome_iff.mpr hmem⟩
      rw [List.mem_map] at hmem
      obtain ⟨e, he, rfl⟩ := hmem
      exact inv.boxesMem e he
  rw [h1, List.length_map]

/-- Applying an available move shrinks the available list by exactly
one. -/
theorem avail_after_move {g : Int} {pc : Nat} {s s' : GameState} {l : Line} {p : Nat}
    (inv : Inv g pc s) (hl : l ∈ getAvailableLines s) (h : applyMove s l p = some s') :
    (getAvailableLines s').length + 1 = (getAvailableLines s).length := by
  have hpc : 1 ≤ pc := by have := inv.cur; omega
  have inv2 : Inv g pc s' := inv_step inv hpc h
  obtain ⟨hgen, hnot⟩ := (inv_mem_avail inv).mp hl
  have hnorm : normalizeLine l = l := (mem_genLines.mp hgen).2
  obtain ⟨-, -, -, -, f5, -⟩ := applyMove_some_fields h
  have hmem2 : ∀ a, a ∈ getAvailableLines s' ↔ a ∈ (getAvailableLines s).erase l := by
    intro a
    rw [inv_mem_avail inv2, (avail_nodup s).mem_erase_iff, inv_mem_avail inv, f5, hnorm]
    rw [List.mem_append, List.mem_singleton]
    constructor
    · rintro ⟨h1, h2⟩
      refine ⟨fun hc => h2 (Or.inr hc), h1, fun hc => h2 (Or.inl hc)⟩
    · rintro ⟨h1, h2, h3⟩
      exact ⟨h2, fun hc => hc.elim h3 h1⟩
  have hlen : (getAvailableLines s').length = ((getAvailableLines s).erase l).length :=
    nodup_same_mem_length (avail_nodup s') ((avail_nodup s).erase l) hmem2
  rw [hlen, List.length_erase_of_mem hl]
  have : 0 < (getAvailableLines s).length := List.length_pos.mpr (List.ne_nil_of_mem hl)
  omega

/-- Every generated line is a side of at least one in-grid box. -/
theorem exists_adjacent_box {g : Int} {n : Line} (hg : 2 ≤ g) (hn : n ∈ genLines g) :
    ∃ b ∈ genBoxes g, n ∈ boxSides b.1 b.2 := by
  unfold genLines at hn
  rw [List.mem_append] at hn
  rcases hn with hh | hv
  · rw [mem_genHorizontal] at hh
    obtain ⟨x, y, rfl, hx0, hx1, hy0, hy1⟩ := hh
    by_cases hy : y < g - 1
    · refine ⟨(x, y), ?_, ?_⟩
      · rw [mem_genBoxes]; exact ⟨by omega, by omega, by omega, by omega⟩
      · rw [mem_boxSides_iff]; left; rfl
    · refine ⟨(x, y - 1), ?_, ?_⟩
      · rw [mem_genBoxes]; exact ⟨by omega, by omega, by omega, by omega⟩
      · rw [mem_boxSides_iff]; right; left
        rw [line_eq_iff]
        exact ⟨rfl, by omega, rfl, by omega⟩
  · rw [mem_genVertical] at hv
    obtain ⟨x, y, rfl, hx0, hx1, hy0, hy1⟩ := hv
    by_cases hx : x < g - 1
    · refine ⟨(x, y), ?_, ?_⟩
      · rw [mem_genBoxes]; exact ⟨by omega, by omega, by omega, by omega⟩
      · rw [mem_boxSides_iff]; right; right; left; rfl
    · refine ⟨(x - 1, y), ?_, ?_⟩
      · rw [mem_genBoxes]; exact ⟨by omega, by omega, by omega, by omega⟩
      · rw [mem_boxSides_iff]; right; right; right
        rw [line_eq_iff]
        exact ⟨by omega, rfl, by omega, rfl⟩

/-- The box-completed flag of a successful move is set exactly when some
box goes from unowned to owned. -/
theorem newbox_iff_flag {s s' : GameState} {l : Line} {p : Nat}
    (h : applyMove s l p = some s') :
    (applyParts s l p).2.2 = true ↔
      ∃ b : Box, s.boxes.lookup b = none ∧ (s'.boxes.lookup b).isSome = true := by
  obtain ⟨-, -, -, -, -, f6, -⟩ := applyMove_some_fields h
  constructor
  · intro hflag
    unfold applyParts at hflag
    rw [assignLoop_flag_iff] at hflag
    rcases hflag with hfalse | ⟨k, hk, hnone⟩
    · exact absurd hfalse (by simp)
    · refine ⟨k, hnone, ?_⟩
      rw [f6]
      unfold applyParts
      rw [assignLoop_lookup_new hk hnone]
      rfl
  · rintro ⟨b, hnone, hsome⟩
    rw [f6] at hsome
    unfold applyParts at hsome ⊢
    by_cases hb : b ∈ findCompletedBoxes (normalizeLine l) s.gridSize
        (s.lineSet ++ [normalizeLine l])
    · rw [assignLoop_flag_iff]
      exact Or.inr ⟨b, hb, hnone⟩
    · rw [assignLoop_lookup_not_mem hb, hnone] at hsome
      exact absurd hsome (by simp)

/-- A successful move that ends the game completes a previously unowned
box. -/
theorem final_move_flag {g : Int} {pc : Nat} {s s' : GameState} {l : Line} {p : Nat}
    (inv : Inv g pc s) (hg : 2 ≤ g) (h : applyMove s l p = some s')
    (hover : s'.gameOver = true) :
    (applyParts s l p).2.2 = true := by
  have hpc : 1 ≤ pc := by have := inv.cur; omega
  have inv2 : Inv g pc s' := inv_step inv hpc h
  obtain ⟨hval, hgo, hcur, hdup⟩ := applyMove_some_pre h
  have hvg : isValidLine l g = true := by rw [← inv.grid]; exact hval
  have hmemgen : normalizeLine l ∈ genLines g := normalize_mem_genLines hvg
  obtain ⟨-, -, -, -, f5, f6, -⟩ := applyMove_some_fields h
  have hfull : (s'.lineSet.length : Int) = totalPossibleLines g :=
    (inv_gameOver_iff inv2 hg).mp hover
  obtain ⟨b, hb, hside⟩ := exists_adjacent_box hg hmemgen
  have hcomp2 : isBoxComplete b.1 b.2 s'.lineSet = true := inv_full_boxes inv2 hg hfull b hb
  have hnone : s.boxes.lookup b = none := by
    cases hlk : s.boxes.lookup b with
    | none => rfl
    | some v =>
      exfalso
      have hkeys : b ∈ s.boxes.map Prod.fst :=
        lookup_isSome_iff.mp (by rw [hlk]; rfl)
      rw [List.mem_map] at hkeys
      obtain ⟨e, he, rfl⟩ := hkeys
      have hc := inv.ownerComplete e he
      have hf := isBoxComplete_false_of hside hdup
      rw [hc] at hf
      exact absurd hf (by simp)
  have hks : b ∈ findCompletedBoxes (normalizeLine l) s.gridSize
      (s.lineSet ++ [normalizeLine l]) := by
    rw [inv.grid]
    refine (mem_findCompletedBoxes hmemgen).mpr ⟨hside, hb, ?_⟩
    rw [← f5]
    exact hcomp2
  unfold applyParts
  rw [assignLoop_flag_iff]
  exact Or.inr ⟨b, hks, hnone⟩

theorem playAll_reachable {g : Int} {pc : Nat} {s s' : GameState} {ms : List Line}
    (hr : Reachable g pc s) (h : playAll s ms = some s') : Reachable g pc s' := by
  induction ms generalizing s with
  | nil => rw [playAll] at h; rw [Option.some.injEq] at h; rw [← h]; exact hr
  | cons l rest ih =>
    rw [playAll] at h
    cases h2 : applyMove s l s.currentPlayer with
    | none => rw [h2] at h; exact absurd h (by simp)
    | some s2 =>
      rw [h2] at h
      exact ih (Reachable.step hr h2) h

/-! ### The claims -/

/-- C1: applyMove returns a rejection exactly when at least one of the
four preconditions fails — the state is already gameOver, the mover is
not the current player, the edge is geometrically invalid for the grid
(diagonal, longer than one unit, out of bounds; non-integer and
malformed inputs are unrepresentable in the embedding and rejected by
the same isValidLine check in the source), or the normalized edge is
already drawn (covering reversed-direction duplicates) — and returns a
successor state when all four hold.  The embedding is a total function
on values, witnessing that no exception is thrown and the caller's
state value is untouched. -/
theorem claim_C1_reject_iff (s : GameState) (l : Line) (p : Nat) :
    (applyMove s l p = none ↔
      s.gameOver = true ∨ s.currentPlayer ≠ p ∨ isValidLine l s.gridSize = false ∨
        normalizeLine l ∈ s.lineSet) ∧
    ((∃ s', applyMove s l p = some s') ↔
      s.gameOver = false ∧ s.currentPlayer = p ∧ isValidLine l s.gridSize = true ∧
        normalizeLine l ∉ s.lineSet) := by
  constructor
  · rw [applyMove_none_iff]
    tauto
  · rw [← Option.isSome_iff_exists, applyMove_isSome_iff]
    tauto

/-- C6 counterexample: two rejections from distinct error classes — an
out-of-turn move on a fresh board and a duplicate-edge move by the
correct player — produce the identical untagged value none, so the
return value of applyMove does not carry a reason distinguishing the
error classes. -/
theorem claim_C6_counterexample :
    (createInitialState 3 2).currentPlayer ≠ 1 ∧
    isValidLine (0, 0, 1, 0) (createInitialState 3 2).gridSize = true ∧
    (createInitialState 3 2).gameOver = false ∧
    demoOne.currentPlayer = 1 ∧
    normalizeLine (0, 0, 1, 0) ∈ demoOne.lineSet ∧
    demoOne.gameOver = false ∧
    applyMove (createInitialState 3 2) (0, 0, 1, 0) 1
      = applyMove demoOne (0, 0, 1, 0) 1 ∧
    applyMove (createInitialState 3 2) (0, 0, 1, 0) 1 = none := by
  decide

/-- C6 amended: every rejection of applyMove — game already over, wrong
mover, invalid geometry, duplicate edge — is returned as the single
undifferentiated value null; the four error classes are distinguished by
which precondition fails, not by the returned rejection value (the
reason tags of the spec live in the transport layer, not in the
core). -/
theorem claim_C6_amended (s : GameState) (l : Line) (p : Nat) :
    (s.gameOver = true → applyMove s l p = none) ∧
    (s.currentPlayer ≠ p → applyMove s l p = none) ∧
    (isValidLine l s.gridSize = false → applyMove s l p = none) ∧
    (normalizeLine l ∈ s.lineSet → applyMove s l p = none) := by
  refine ⟨?_, ?_, ?_, ?_⟩ <;> intro hc <;> rw [applyMove_none_iff] <;> tauto

theorem claim_C6_amended_witness :
    applyMove (createInitialState 3 2) (0, 0, 1, 0) 1 = none :=
  (claim_C6_amended (createInitialState 3 2) (0, 0, 1, 0) 1).2.1 (by decide)

/-- Flipping the started flag of the input flips it in the output and
changes nothing else: applyMove never reads started. -/
theorem applyMove_started (s : GameState) (l : Line) (p : Nat) (b : Bool) :
    applyMove { s with started := b } l p
      = (applyMove s l p).map fun t => { t with started := b } := by
  cases happly : applyMove s l p with
  | none =>
    show applyMove { s with started := b } l p = none
    rw [applyMove_none_iff]
    have h0 := applyMove_none_iff.mp happly
    exact h0
  | some s2 =>
    show applyMove { s with started := b } l p = some { s2 with started := b }
    have hpre := applyMove_some_pre happly
    have hsome : (applyMove { s with started := b } l p).isSome = true := by
      rw [applyMove_isSome_iff]
      exact hpre
    rw [Option.isSome_iff_exists] at hsome
    obtain ⟨t, ht⟩ := hsome
    rw [ht]
    congr 1
    obtain ⟨g1, g2, g3, g4, g5, g6, g7, g8, g9, g10⟩ := applyMove_some_fields ht
    obtain ⟨f1, f2, f3, f4, f5, f6, f7, f8, f9, f10⟩ := applyMove_some_fields happly
    have hparts : applyParts { s with started := b } l p = applyParts s l p := rfl
    rw [hparts] at g6 g7 g9 g10
    ext
    · rw [g1, f1]
    · rw [g4, f4]
    · rw [g5, f5]
    · rw [g6, f6]
    · rw [g7, f7]
    · rw [g9, f9, g8, f8]
    · rw [g2, f2]
    · rw [g3]
    · rw [g8, f8]
    · rw [g10, f10, g8, f8]

/-- C10: applyMove never consults the started flag — flipping started in
the input state flips it in the output and changes nothing else — and a
state with started = false whose four stated preconditions hold is
accepted, not rejected, with started still false afterwards.  (The
game-not-started rejection of the system lives in the socket handlers,
outside the core.) -/
theorem claim_C10_started_ignored (s : GameState) (l : Line) (p : Nat) :
    (∀ b : Bool, applyMove { s with started := b } l p
      = (applyMove s l p).map fun t => { t with started := b }) ∧
    (s.started = false → s.gameOver = false → s.currentPlayer = p →
      isValidLine l s.gridSize = true → normalizeLine l ∉ s.lineSet →
      ∃ s', applyMove s l p = some s' ∧ s'.started = false) := by
  constructor
  · intro b
    exact applyMove_started s l p b
  · intro hst h1 h2 h3 h4
    have hs := applyMove_isSome_iff.mpr ⟨h3, h1, h2, h4⟩
    rw [Option.isSome_iff_exists] at hs
    obtain ⟨s', hs'⟩ := hs
    obtain ⟨-, -, f3, -⟩ := applyMove_some_fields hs'
    exact ⟨s', hs', by rw [f3]; exact hst⟩

theorem claim_C10_witness :
    ∃ s', applyMove (createInitialState 3 2) (0, 0, 1, 0) 0 = some s' ∧
      s'.started = false :=
  (claim_C10_started_ignored (createInitialState 3 2) (0, 0, 1, 0) 0).2 (by decide)
    (by decide) (by decide) (by decide) (by decide)

/-- C5: every state reachable from createInitialState by successful
moves, for a grid size and player count within the validated bounds,
satisfies the invariant: the score total equals the number of owned
boxes, the current player index is within [0, playerCount), and
gameOver holds exactly when the drawn-edge count equals
totalPossibleEdges. -/
theorem claim_C5_invariant {g : Int} {pc : Nat} {s : GameState}
    (hr : Reachable g pc s) (hg : isValidGridSize g = true)
    (hp : isValidPlayerCount pc = true) :
    s.scores.sum = ownedBoxCount s ∧ s.currentPlayer < pc ∧
      (s.gameOver = true ↔ (s.lineSet.length : Int) = totalPossibleLines g) := by
  have hg2 : 2 ≤ g := by
    have := of_decide_eq_true hg
    omega
  have hp1 : 1 ≤ pc := by
    have := of_decide_eq_true hp
    omega
  have inv := reachable_inv hr hg2 hp1
  exact ⟨by rw [inv.sumScores, inv_ownedBoxCount inv], inv.cur, inv_gameOver_iff inv hg2⟩

theorem claim_C5_witness :
    (createInitialState 3 2).scores.sum = ownedBoxCount (createInitialState 3 2) ∧
    (createInitialState 3 2).currentPlayer < 2 ∧
    ((createInitialState 3 2).gameOver = true ↔
      (((createInitialState 3 2).lineSet.length : Nat) : Int) = totalPossibleLines 3) :=
  claim_C5_invariant Reachable.init (by decide) (by decide)

theorem assignLoop_length {p : Nat} {ks : List Box} {boxes : List (Box × Nat)}
    {scores : List Nat} {flag : Bool} (hnd : ks.Nodup) :
    (assignLoop p ks boxes scores flag).1.length
      = boxes.length + (ks.filter fun k => (boxes.lookup k).isNone).length := by
  induction ks generalizing boxes scores flag with
  | nil => simp [assignLoop]
  | cons kh rest ih =>
    rw [assignLoop]
    rw [List.nodup_cons] at hnd
    obtain ⟨hkh, hnd2⟩ := hnd
    cases hl : boxes.lookup kh with
    | none =>
      rw [ih hnd2]
      have hfilters : rest.filter (fun k => ((boxes ++ [(kh, p)]).lookup k).isNone)
          = rest.filter (fun k => (boxes.lookup k).isNone) := by
        refine List.filter_congr ?_
        intro k hk
        have hne : k ≠ kh := fun hc => hkh (hc ▸ hk)
        cases hlk : boxes.lookup k with
        | none => rw [lookup_append_single_of_none hlk, if_neg hne]
        | some w => rw [lookup_append_of_isSome hlk]
      rw [hfilters, List.filter_cons, hl]
      simp only [Option.isNone_none, if_pos]
      rw [List.length_append, List.length_cons]
      simp only [List.length_cons, List.length_nil]
      omega
    | some w =>
      rw [ih hnd2, List.filter_cons, hl]
      simp

/-- Two distinct boxes sharing a side are adjacent. -/
theorem shared_side_adjacent {b1 b2 : Box} {n : Line} (hne : b1 ≠ b2)
    (h1 : n ∈ boxSides b1.1 b1.2) (h2 : n ∈ boxSides b2.1 b2.2) :
    (b1.1 - b2.1).natAbs + (b1.2 - b2.2).natAbs = 1 := by
  obtain ⟨x1, y1⟩ := b1
  obtain ⟨x2, y2⟩ := b2
  have hne2 : ¬(x1 = x2 ∧ y1 = y2) := by
    rintro ⟨rfl, rfl⟩
    exact hne rfl
  rw [mem_boxSides_iff] at h1 h2
  rcases h1 with rfl | rfl | rfl | rfl <;>
    (rcases h2 with heq | heq | heq | heq <;> rw [line_eq_iff] at heq <;>
      obtain ⟨e1, e2, e3, e4⟩ := heq <;> omega)

/-- C3: on a successful applyMove, every box found newly complete whose
owner was unset receives the mover as owner; the boxes map grows by
exactly one entry per such box and the mover's score by the same
amount; no other score entry changes; a single move completes at most
two boxes, and when it completes two they are distinct adjacent boxes
sharing the inserted edge, each three-sided beforehand; and an owner,
once set, is never reassigned or cleared. -/
theorem claim_C3_box_scoring {s s' : GameState} {l : Line} {p : Nat}
    (h : applyMove s l p = some s') (hp : p < s.scores.length) :
    (∀ b ∈ findCompletedBoxes (normalizeLine l) s.gridSize
        (s.lineSet ++ [normalizeLine l]),
      s.boxes.lookup b = none → s'.boxes.lookup b = some p) ∧
    s'.boxes.length = s.boxes.length
      + ((findCompletedBoxes (normalizeLine l) s.gridSize
          (s.lineSet ++ [normalizeLine l])).filter
            fun b => (s.boxes.lookup b).isNone).length ∧
    s'.scores.getD p 0 + s.boxes.length = s.scores.getD p 0 + s'.boxes.length ∧
    (∀ j, j ≠ p → s'.scores.getD j 0 = s.scores.getD j 0) ∧
    s'.scores.length = s.scores.length ∧
    (findCompletedBoxes (normalizeLine l) s.gridSize
      (s.lineSet ++ [normalizeLine l])).length ≤ 2 ∧
    (∀ b1 b2, findCompletedBoxes (normalizeLine l) s.gridSize
        (s.lineSet ++ [normalizeLine l]) = [b1, b2] →
      b1 ≠ b2 ∧ (b1.1 - b2.1).natAbs + (b1.2 - b2.2).natAbs = 1 ∧
      normalizeLine l ∈ boxSides b1.1 b1.2 ∧ normalizeLine l ∈ boxSides b2.1 b2.2 ∧
      countBoxSides b1.1 b1.2 s.lineSet = 3 ∧ countBoxSides b2.1 b2.2 s.lineSet = 3) ∧
    (∀ b v, s.boxes.lookup b = some v → s'.boxes.lookup b = some v) := by
  obtain ⟨hval, hgo, hcur, hdup⟩ := applyMove_some_pre h
  obtain ⟨f1, f2, f3, f4, f5, f6, f7, f8, f9, f10⟩ := applyMove_some_fields h
  have hmemgen : normalizeLine l ∈ genLines s.gridSize := normalize_mem_genLines hval
  obtain ⟨hnodup, hlen2⟩ := findCompletedBoxes_nodup_len hmemgen
    (s.lineSet ++ [normalizeLine l])
  refine ⟨?_, ?_, ?_, ?_, ?_, hlen2, ?_, ?_⟩
  · intro b hb hnone
    rw [f6]
    unfold applyParts
    exact assignLoop_lookup_new hb hnone
  · rw [f6]
    unfold applyParts
    exact assignLoop_length hnodup
  · have hm := @assignLoop_scores_mover p
      (findCompletedBoxes (normalizeLine l) s.gridSize
        (s.lineSet ++ [normalizeLine l]))
      s.boxes s.scores false hp
    rw [f7, f6]
    unfold applyParts
    exact hm
  · intro j hj
    rw [f7]
    unfold applyParts
    exact assignLoop_scores_other hj
  · rw [f7]
    unfold applyParts
    exact assignLoop_scores_length
  · intro b1 b2 heq
    have hb1 : b1 ∈ findCompletedBoxes (normalizeLine l) s.gridSize
        (s.lineSet ++ [normalizeLine l]) := by
      rw [heq]; exact List.mem_cons_self _ _
    have hb2 : b2 ∈ findCompletedBoxes (normalizeLine l) s.gridSize
        (s.lineSet ++ [normalizeLine l]) := by
      rw [heq]; exact List.mem_cons_of_mem _ (List.mem_singleton_self _)
    obtain ⟨hs1, -, hc1⟩ := (mem_findCompletedBoxes hmemgen).mp hb1
    obtain ⟨hs2, -, hc2⟩ := (mem_findCompletedBoxes hmemgen).mp hb2
    have hne : b1 ≠ b2 := by
      rw [heq] at hnodup
      rw [List.nodup_cons] at hnodup
      intro hc
      exact hnodup.1 (by rw [hc]; exact List.mem_singleton_self _)
    exact ⟨hne, shared_side_adjacent hne hs1 hs2, hs1, hs2,
      countBoxSides_three_of hs1 hdup hc1, countBoxSides_three_of hs2 hdup hc2⟩
  · intro b v hv
    rw [f6]
    unfold applyParts
    exact assignLoop_lookup_mono hv

theorem claim_C3_witness : demoCompleted.boxes.lookup (0, 0) = some 1 :=
  (claim_C3_box_scoring (s := demoThreeSided) (l := (1, 0, 1, 1)) (p := 1)
    (by decide) (by decide)).1 (0, 0) (by decide) (by decide)

/-- C2: for every successful move from a reachable state of a valid
configuration, the resulting currentPlayer equals the mover exactly when
some box newly gained an owner, and otherwise equals
(mover + 1) mod playerCount; this includes the final move of the game,
which always completes a box. -/
theorem claim_C2_turn {g : Int} {pc : Nat} {s s' : GameState} {l : Line} {p : Nat}
    (hr : Reachable g pc s) (hg : isValidGridSize g = true)
    (hpc : isValidPlayerCount pc = true) (h : applyMove s l p = some s') :
    (s'.currentPlayer = p ↔
      ∃ b : Box, s.boxes.lookup b = none ∧ (s'.boxes.lookup b).isSome = true) ∧
    ((¬ ∃ b : Box, s.boxes.lookup b = none ∧ (s'.boxes.lookup b).isSome = true) →
      s'.currentPlayer = (p + 1) % s.maxPlayers) := by
  have hg2 : 2 ≤ g := by have := of_decide_eq_true hg; omega
  have hp1 : 1 ≤ pc := by have := of_decide_eq_true hpc; omega
  have hp2 : 2 ≤ pc := by have := of_decide_eq_true hpc; omega
  have inv := reachable_inv hr hg2 hp1
  obtain ⟨hval, hgo, hcur, hdup⟩ := applyMove_some_pre h
  obtain ⟨f1, f2, f3, f4, f5, f6, f7, f8, f9, f10⟩ := applyMove_some_fields h
  have hflag := newbox_iff_flag h
  have hplt : p < pc := by rw [← hcur]; exact inv.cur
  have hnext : (p + 1) % s.maxPlayers ≠ p := by
    rw [inv.players]
    by_cases hc : p + 1 < pc
    · rw [Nat.mod_eq_of_lt hc]; omega
    · have hcc : p + 1 = pc := by omega
      rw [hcc, Nat.mod_self]; omega
  cases hover : s'.gameOver with
  | true =>
    have hflag2 : (applyParts s l p).2.2 = true := final_move_flag inv hg2 h hover
    have hcp : s'.currentPlayer = p := by
      rw [f9, hover]
      simp
    constructor
    · exact ⟨fun _ => hflag.mp hflag2, fun _ => hcp⟩
    · intro hne
      exact absurd (hflag.mp hflag2) hne
  | false =>
    rw [hover] at f9
    simp only [Bool.false_eq_true, if_false] at f9
    cases hfl : (applyParts s l p).2.2 with
    | true =>
      rw [hfl] at f9
      simp only [if_pos] at f9
      constructor
      · exact ⟨fun _ => hflag.mp (by rw [hfl]), fun _ => f9⟩
      · intro hne
        exact absurd (hflag.mp (by rw [hfl])) hne
    | false =>
      rw [hfl] at f9
      simp only [Bool.false_eq_true, if_false] at f9
      constructor
      · constructor
        · intro hcp
          rw [f9] at hcp
          exact absurd hcp hnext
        · intro hex
          have := hflag.mpr hex
          rw [hfl] at this
          exact absurd this (by simp)
      · intro hne
        exact f9

theorem claim_C2_witness :
    demoOne.currentPlayer = (0 + 1) % (createInitialState 3 2).maxPlayers :=
  (claim_C2_turn (s := createInitialState 3 2) (l := (0, 0, 1, 0)) (p := 0)
      Reachable.init (by decide) (by decide) (by decide)).2
    (fun hex => by
      obtain ⟨b, h1, h2⟩ := hex
      rw [show demoOne.boxes = [] from by decide] at h2
      simp [List.lookup] at h2)

/-- C4: a successful move from a reachable state of a valid
configuration ends the game exactly when the resulting drawn-edge count
reaches totalPossibleEdges; in that case the winner is the unique
strict maximiser of the scores, or null when the maximum is shared;
otherwise gameOver stays false and winner stays null. -/
theorem claim_C4_terminal {g : Int} {pc : Nat} {s s' : GameState} {l : Line} {p : Nat}
    (hr : Reachable g pc s) (hg : isValidGridSize g = true)
    (hpc : isValidPlayerCount pc = true) (h : applyMove s l p = some s') :
    ((s'.lineSet.length : Int) = totalPossibleLines g →
      s'.gameOver = true ∧ s'.winner = determineWinner s'.scores ∧
        winnerSpec s'.scores s'.winner) ∧
    ((s'.lineSet.length : Int) ≠ totalPossibleLines g →
      s'.gameOver = false ∧ s'.winner = none) := by
  have hg2 : 2 ≤ g := by have := of_decide_eq_true hg; omega
  have hp1 : 1 ≤ pc := by have := of_decide_eq_true hpc; omega
  have inv := reachable_inv hr hg2 hp1
  have inv2 : Inv g pc s' := inv_step inv hp1 h
  obtain ⟨f1, f2, f3, f4, f5, f6, f7, f8, f9, f10⟩ := applyMove_some_fields h
  have hiff := inv_gameOver_iff inv2 hg2
  constructor
  · intro hfull
    have hover : s'.gameOver = true := hiff.mpr hfull
    have hwin : s'.winner = determineWinner s'.scores := by
      rw [f10, hover, f7]
      simp
    have hnonnil : s'.scores ≠ [] := by
      have hlen : s'.scores.length = pc := inv2.scoresLen
      intro hc
      rw [hc] at hlen
      simp at hlen
      omega
    refine ⟨hover, hwin, ?_⟩
    rw [hwin]
    exact determineWinner_spec s'.scores hnonnil
  · intro hnfull
    have hover : s'.gameOver = false := by
      cases hc : s'.gameOver with
      | false => rfl
      | true => exact absurd (hiff.mp hc) hnfull
    refine ⟨hover, ?_⟩
    rw [f10, hover]
    simp

theorem claim_C4_witness : demoFull.gameOver = true ∧ demoFull.winner = none := by
  have hr : Reachable 3 2 demoNearEnd :=
    @playAll_reachable 3 2 (createInitialState 3 2) demoNearEnd ((genLines 3).take 11)
      Reachable.init (by decide)
  have hmain := (@claim_C4_terminal 3 2 demoNearEnd demoFull (2, 1, 2, 2) 0
    hr (by decide) (by decide) (by decide)).1 (by decide)
  exact ⟨hmain.1, by rw [hmain.2.1]; decide⟩

theorem countBoxSides_le_four (x y : Int) (ls : List Line) :
    countBoxSides x y ls ≤ 4 := by
  unfold countBoxSides
  split_ifs <;> omega

/-- A box missing two distinct sides has at most two drawn sides. -/
theorem countBoxSides_two_missing {x y : Int} {ls : List Line} {e1 e2 : Line}
    (h1 : e1 ∈ boxSides x y) (h2 : e2 ∈ boxSides x y) (hne : e1 ≠ e2)
    (hn1 : e1 ∉ ls) (hn2 : e2 ∉ ls) : countBoxSides x y ls ≤ 2 := by
  have hs1 : countBoxSides x y (ls ++ [e1]) = countBoxSides x y ls + 1 :=
    countBoxSides_append_side h1 hn1
  have hn2b : e2 ∉ ls ++ [e1] := by
    rw [List.mem_append, List.mem_singleton]
    rintro (hc | hc)
    · exact hn2 hc
    · exact hne hc.symm
  have hs2 : countBoxSides x y ((ls ++ [e1]) ++ [e2])
      = countBoxSides x y (ls ++ [e1]) + 1 :=
    countBoxSides_append_side h2 hn2b
  have hb := countBoxSides_le_four x y ((ls ++ [e1]) ++ [e2])
  omega

/-- createsDanger scans exactly the in-grid boxes for an unowned
three-sided box in the simulated set. -/
theorem createsDanger_false_iff {s : GameState} {w : Line} :
    createsDanger s w = false ↔
      ∀ b ∈ genBoxes s.gridSize,
        ¬(countBoxSides b.1 b.2 (s.lineSet ++ [normalizeLine w]) = 3 ∧
          (s.boxes.lookup b).isNone = true) := by
  unfold createsDanger
  dsimp only
  rw [show lineToKey (normalizeLine w) = normalizeLine w from normalizeLine_idem w]
  rw [List.any_eq_false]
  constructor
  · intro hall b hb
    rw [mem_genBoxes] at hb
    obtain ⟨hb1, hb2, hb3, hb4⟩ := hb
    have hy := hall b.2 (mem_intRange.mpr ⟨hb3, hb4⟩)
    rw [Bool.not_eq_true, List.any_eq_false] at hy
    have hx := hy b.1 (mem_intRange.mpr ⟨hb1, hb2⟩)
    rw [Bool.not_eq_true, Bool.and_eq_false_iff] at hx
    rintro ⟨hc1, hc2⟩
    rcases hx with hx | hx
    · rw [beq_eq_false_iff_ne] at hx
      exact hx hc1
    · rw [hc2] at hx
      exact absurd hx (by simp)
  · intro hall y hy
    rw [Bool.not_eq_true, List.any_eq_false]
    intro x hx
    rw [Bool.not_eq_true, Bool.and_eq_false_iff]
    rw [mem_intRange] at hx hy
    have hb := hall (x, y) (mem_genBoxes.mpr ⟨hx.1, hx.2, hy.1, hy.2⟩)
    by_cases hc : countBoxSides x y (s.lineSet ++ [normalizeLine w]) = 3
    · right
      cases hlk : ((s.boxes.lookup (x, y)).isNone) with
      | false => rfl
      | true => exact absurd ⟨hc, hlk⟩ hb
    · left
      rw [beq_eq_false_iff_ne]
      exact hc

/-- completesBox tests whether findCompletedBoxes is nonempty on the
simulated set. -/
theorem completesBox_iff {s : GameState} {l : Line} :
    completesBox s l = true ↔
      findCompletedBoxes (normalizeLine l) s.gridSize
        (s.lineSet ++ [normalizeLine l]) ≠ [] := by
  unfold completesBox
  dsimp only
  rw [show lineToKey (normalizeLine l) = normalizeLine l from normalizeLine_idem l]
  rw [Bool.not_eq_eq_eq_not, Bool.not_true, List.isEmpty_eq_false_iff_exists_mem]
  constructor
  · rintro ⟨b, hb⟩
    exact List.ne_nil_of_mem hb
  · intro hne
    rcases hq : findCompletedBoxes (normalizeLine l) s.gridSize
        (s.lineSet ++ [normalizeLine l]) with _ | ⟨b, t⟩
    · exact absurd hq hne
    · exact ⟨b, List.mem_cons_self b t⟩

/-- A box missing one of its sides is unowned in an invariant state. -/
theorem inv_unowned_of_missing_side {g : Int} {pc : Nat} {s : GameState}
    (inv : Inv g pc s) {b : Box} {n : Line}
    (hside : n ∈ boxSides b.1 b.2) (hnot : n ∉ s.lineSet) :
    s.boxes.lookup b = none := by
  cases hlk : s.boxes.lookup b with
  | none => rfl
  | some v =>
    exfalso
    have hkeys : b ∈ s.boxes.map Prod.fst :=
      lookup_isSome_iff.mp (by rw [hlk]; rfl)
    rw [List.mem_map] at hkeys
    obtain ⟨e, he, rfl⟩ := hkeys
    have hc := inv.ownerComplete e he
    have hf := isBoxComplete_false_of hside hnot
    rw [hc] at hf
    exact absurd hf (by simp)

/-- C9: whenever a reachable state of a valid configuration has at least
one safe available move (one whose simulated application leaves no
unowned box at exactly three drawn sides), the greedy (medium) strategy
never returns an unsafe move, for every outcome of its internal random
choices. -/
theorem claim_C9_greedy_safety {g : Int} {pc : Nat} {s : GameState}
    (hr : Reachable g pc s) (hg : isValidGridSize g = true)
    (hpc : isValidPlayerCount pc = true)
    (hexi : ∃ w ∈ getAvailableLines s, createsDanger s w = false)
    {r1 r2 : Nat} {m : Line} (hm : mediumAI s r1 r2 = some m) :
    createsDanger s m = false := by
  have hg2 : 2 ≤ g := by have := of_decide_eq_true hg; omega
  have hp1 : 1 ≤ pc := by have := of_decide_eq_true hpc; omega
  have inv := reachable_inv hr hg2 hp1
  obtain ⟨w, hw, hwsafe⟩ := hexi
  obtain ⟨hwgen, hwnot⟩ := (inv_mem_avail inv).mp hw
  have hwnorm : normalizeLine w = w := (mem_genLines.mp hwgen).2
  unfold mediumAI at hm
  by_cases hemp : (getAvailableLines s).isEmpty = true
  · rw [if_pos hemp] at hm
    exact absurd hm (by simp)
  · rw [if_neg hemp] at hm
    cases hfind : (getAvailableLines s).find? (fun l2 => completesBox s l2) with
    | some m0 =>
      rw [hfind] at hm
      have hm2 : some m0 = some m := hm
      rw [Option.some.injEq] at hm2
      subst hm2
      have hmmem : m0 ∈ getAvailableLines s := List.mem_of_find?_eq_some hfind
      have hcompl : completesBox s m0 = true := List.find?_some hfind
      obtain ⟨hmgen, hmnot⟩ := (inv_mem_avail inv).mp hmmem
      have hmnorm : normalizeLine m0 = m0 := (mem_genLines.mp hmgen).2
      rw [completesBox_iff, hmnorm] at hcompl
      obtain ⟨b, hb⟩ : ∃ b, b ∈ findCompletedBoxes m0 s.gridSize
          (s.lineSet ++ [m0]) := by
        rcases hq : findCompletedBoxes m0 s.gridSize (s.lineSet ++ [m0]) with _ | ⟨b, t⟩
        · exact absurd hq hcompl
        · exact ⟨b, List.mem_cons_self b t⟩
      rw [inv.grid] at hb
      have hchar := (mem_findCompletedBoxes hmgen).mp hb
      obtain ⟨hside, hbgen, hbcomp⟩ := hchar
      have hnone : s.boxes.lookup b = none := inv_unowned_of_missing_side inv hside hmnot
      have h3 : countBoxSides b.1 b.2 s.lineSet = 3 :=
        countBoxSides_three_of hside hmnot hbcomp
      have hwside : w ∈ boxSides b.1 b.2 := by
        by_contra hc
        have hcount := @countBoxSides_append_not_side b.1 b.2 s.lineSet w hc
        have hfd := (createsDanger_false_iff.mp hwsafe) b (by rw [inv.grid]; exact hbgen)
        rw [hwnorm] at hfd
        exact hfd ⟨by rw [hcount]; exact h3, by rw [hnone]; rfl⟩
      have hwm : w = m0 := by
        by_contra hc
        have := countBoxSides_two_missing hwside hside hc hwnot hmnot
        omega
      rw [← hwm]
      exact hwsafe
    | none =>
      rw [hfind] at hm
      have hwin : w ∈ (getAvailableLines s).filter fun l2 => !(createsDanger s l2) := by
        rw [List.mem_filter]
        exact ⟨hw, by rw [hwsafe]; rfl⟩
      have hpos : 0 < ((getAvailableLines s).filter
          fun l2 => !(createsDanger s l2)).length :=
        List.length_pos.mpr (List.ne_nil_of_mem hwin)
      have hm2 : (if 0 < ((getAvailableLines s).filter
            fun l2 => !(createsDanger s l2)).length then
          some (((getAvailableLines s).filter fun l2 => !(createsDanger s l2)).getD
            (r1 % ((getAvailableLines s).filter
              fun l2 => !(createsDanger s l2)).length) (0, 0, 0, 0))
        else
          some ((getAvailableLines s).getD
            (r2 % (getAvailableLines s).length) (0, 0, 0, 0))) = some m := hm
      rw [if_pos hpos, Option.some.injEq] at hm2
      have hmmem : m ∈ (getAvailableLines s).filter fun l2 => !(createsDanger s l2) := by
        rw [← hm2]
        have hlt : r1 % ((getAvailableLines s).filter
            fun l2 => !(createsDanger s l2)).length
            < ((getAvailableLines s).filter fun l2 => !(createsDanger s l2)).length :=
          Nat.mod_lt _ hpos
        rw [List.getD_eq_getElem _ _ hlt]
        exact List.getElem_mem _
      rw [List.mem_filter] at hmmem
      have hs2 := hmmem.2
      rw [Bool.not_eq_eq_eq_not, Bool.not_true] at hs2
      exact hs2

theorem claim_C9_witness : createsDanger (createInitialState 3 2) (0, 0, 1, 0) = false :=
  @claim_C9_greedy_safety 3 2 (createInitialState 3 2) Reachable.init (by decide) (by decide)
    ⟨(0, 0, 1, 0), by decide, by decide⟩ 0 0 (0, 0, 1, 0) (by decide)

theorem minimax_zero (ai : Nat) (s : GameState) (alpha beta : SearchValue) (mx : Bool) :
    minimax ai 0 s alpha beta mx = intVal (evalState s ai) := by
  unfold minimax
  rfl

theorem minimax_succ (ai d : Nat) (s : GameState) (alpha beta : SearchValue) (mx : Bool) :
    minimax ai (d + 1) s alpha beta mx =
      (if s.gameOver then intVal (evalState s ai)
       else if (getAvailableLines s).isEmpty then intVal (evalState s ai)
       else if mx || decide (s.currentPlayer = ai) then
         maxLoop ai d s (getAvailableLines s) alpha beta ⊥
       else minLoop ai d s (getAvailableLines s) alpha beta ⊤) := by
  unfold minimax
  rfl

theorem maxLoop_nil (ai d : Nat) (s : GameState) (alpha beta acc : SearchValue) :
    maxLoop ai d s [] alpha beta acc = acc := by
  conv_lhs => unfold maxLoop

theorem maxLoop_cons (ai d : Nat) (s : GameState) (l : Line) (rest : List Line)
    (alpha beta acc : SearchValue) :
    maxLoop ai d s (l :: rest) alpha beta acc =
      match applyMove s (normalizeLine l) s.currentPlayer with
      | none => maxLoop ai d s rest alpha beta acc
      | some s2 =>
        if beta ≤ max alpha (minimax ai d s2 alpha beta (decide (s2.currentPlayer = ai))) then
          max acc (minimax ai d s2 alpha beta (decide (s2.currentPlayer = ai)))
        else
          maxLoop ai d s rest
            (max alpha (minimax ai d s2 alpha beta (decide (s2.currentPlayer = ai)))) beta
            (max acc (minimax ai d s2 alpha beta (decide (s2.currentPlayer = ai)))) := by
  conv_lhs => unfold maxLoop

theorem minLoop_nil (ai d : Nat) (s : GameState) (alpha beta acc : SearchValue) :
    minLoop ai d s [] alpha beta acc = acc := by
  conv_lhs => unfold minLoop

theorem minLoop_cons (ai d : Nat) (s : GameState) (l : Line) (rest : List Line)
    (alpha beta acc : SearchValue) :
    minLoop ai d s (l :: rest) alpha beta acc =
      match applyMove s (normalizeLine l) s.currentPlayer with
      | none => minLoop ai d s rest alpha beta acc
      | some s2 =>
        if min beta (minimax ai d s2 alpha beta (decide (s2.currentPlayer = ai))) ≤ alpha then
          min acc (minimax ai d s2 alpha beta (decide (s2.currentPlayer = ai)))
        else
          minLoop ai d s rest alpha
            (min beta (minimax ai d s2 alpha beta (decide (s2.currentPlayer = ai))))
            (min acc (minimax ai d s2 alpha beta (decide (s2.currentPlayer = ai)))) := by
  conv_lhs => unfold minLoop

theorem hardLoop_cons (ai maxDepth : Nat) (s : GameState) (l : Line) (rest : List Line)
    (bestScore : SearchValue) (best : Option Line) :
    hardLoop ai maxDepth s (l :: rest) bestScore best =
      match applyMove s (normalizeLine l) s.currentPlayer with
      | none => hardLoop ai maxDepth s rest bestScore best
      | some s2 =>
        if bestScore < minimax ai (maxDepth - 1) s2 ⊥ ⊤ false then
          hardLoop ai maxDepth s rest (minimax ai (maxDepth - 1) s2 ⊥ ⊤ false) (some l)
        else hardLoop ai maxDepth s rest bestScore best := by
  conv_lhs => unfold hardLoop

theorem intVal_ne_bot (z : Int) : intVal z ≠ ⊥ := by
  unfold intVal
  exact WithBot.coe_ne_bot

/-- Available moves are stored normalized. -/
theorem inv_avail_norm {g : Int} {pc : Nat} {s : GameState} (inv : Inv g pc s) {l : Line}
    (hl : l ∈ getAvailableLines s) : normalizeLine l = l :=
  (mem_genLines.mp ((inv_mem_avail inv).mp hl).1).2

/-- The maximizing loop never returns -Infinity when no child value is
-Infinity and either the accumulator already is not -Infinity or the
move list is nonempty with every child move succeeding. -/
theorem maxLoop_ne_bot (ai d : Nat) (s : GameState) :
    ∀ (moves : List Line) (alpha beta acc : SearchValue),
      (∀ l ∈ moves, ∀ s2, applyMove s (normalizeLine l) s.currentPlayer = some s2 →
        ∀ (a2 b2 : SearchValue) (mx : Bool), minimax ai d s2 a2 b2 mx ≠ ⊥) →
      ((moves ≠ [] ∧ ∀ l ∈ moves,
          (applyMove s (normalizeLine l) s.currentPlayer).isSome = true) ∨ acc ≠ ⊥) →
      maxLoop ai d s moves alpha beta acc ≠ ⊥ := by
  intro moves
  induction moves with
  | nil =>
    intro alpha beta acc hchild hcase
    rw [maxLoop_nil]
    rcases hcase with ⟨hne, -⟩ | hacc
    · exact absurd rfl hne
    · exact hacc
  | cons l rest ih =>
    intro alpha beta acc hchild hcase
    rw [maxLoop_cons]
    cases happ : applyMove s (normalizeLine l) s.currentPlayer with
    | none =>
      dsimp only
      refine ih alpha beta acc (fun l2 hl2 => hchild l2 (List.mem_cons_of_mem _ hl2)) ?_
      rcases hcase with ⟨-, hsucc⟩ | hacc
      · exfalso
        have hs := hsucc l (List.mem_cons_self _ _)
        rw [happ] at hs
        exact absurd hs (by simp)
      · exact Or.inr hacc
    | some s2 =>
      dsimp only
      have hev : minimax ai d s2 alpha beta (decide (s2.currentPlayer = ai)) ≠ ⊥ :=
        hchild l (List.mem_cons_self _ _) s2 happ _ _ _
      have hacc2 : max acc (minimax ai d s2 alpha beta (decide (s2.currentPlayer = ai))) ≠ ⊥ := by
        intro hc
        exact hev (max_eq_bot.mp hc).2
      by_cases hcut : beta ≤ max alpha (minimax ai d s2 alpha beta (decide (s2.currentPlayer = ai)))
      · rw [if_pos hcut]
        exact hacc2
      · rw [if_neg hcut]
        exact ih _ beta _ (fun l2 hl2 => hchild l2 (List.mem_cons_of_mem _ hl2)) (Or.inr hacc2)

/-- The minimizing loop never returns -Infinity when the accumulator is
not -Infinity and no child value is -Infinity. -/
theorem minLoop_ne_bot (ai d : Nat) (s : GameState) :
    ∀ (moves : List Line) (alpha beta acc : SearchValue),
      (∀ l ∈ moves, ∀ s2, applyMove s (normalizeLine l) s.currentPlayer = some s2 →
        ∀ (a2 b2 : SearchValue) (mx : Bool), minimax ai d s2 a2 b2 mx ≠ ⊥) →
      acc ≠ ⊥ →
      minLoop ai d s moves alpha beta acc ≠ ⊥ := by
  intro moves
  induction moves with
  | nil =>
    intro alpha beta acc hchild hacc
    rw [minLoop_nil]
    exact hacc
  | cons l rest ih =>
    intro alpha beta acc hchild hacc
    rw [minLoop_cons]
    cases happ : applyMove s (normalizeLine l) s.currentPlayer with
    | none =>
      dsimp only
      exact ih alpha beta acc (fun l2 hl2 => hchild l2 (List.mem_cons_of_mem _ hl2)) hacc
    | some s2 =>
      dsimp only
      have hev : minimax ai d s2 alpha beta (decide (s2.currentPlayer = ai)) ≠ ⊥ :=
        hchild l (List.mem_cons_self _ _) s2 happ _ _ _
      have hacc2 : min acc (minimax ai d s2 alpha beta (decide (s2.currentPlayer = ai))) ≠ ⊥ := by
        intro hc
        rcases min_eq_bot.mp hc with hc2 | hc2
        · exact hacc hc2
        · exact hev hc2
      by_cases hcut : min beta (minimax ai d s2 alpha beta (decide (s2.currentPlayer = ai))) ≤ alpha
      · rw [if_pos hcut]
        exact hacc2
      · rw [if_neg hcut]
        exact ih alpha _ _ (fun l2 hl2 => hchild l2 (List.mem_cons_of_mem _ hl2)) hacc2

/-- From a reachable state of a nondegenerate configuration, minimax
never returns the -Infinity sentinel: there is always a successful child
to evaluate, and leaves evaluate to finite score differentials. -/
theorem minimax_ne_bot {g : Int} {pc : Nat} (hg : 2 ≤ g) (hp1 : 1 ≤ pc) (ai : Nat) :
    ∀ (d : Nat) (s : GameState), Reachable g pc s →
      ∀ (alpha beta : SearchValue) (mx : Bool), minimax ai d s alpha beta mx ≠ ⊥ := by
  intro d
  induction d with
  | zero =>
    intro s hr alpha beta mx
    rw [minimax_zero]
    exact intVal_ne_bot _
  | succ d2 ih =>
    intro s hr alpha beta mx
    rw [minimax_succ]
    by_cases hgo : s.gameOver = true
    · rw [if_pos hgo]
      exact intVal_ne_bot _
    · rw [if_neg hgo]
      have hgof : s.gameOver = false := Bool.eq_false_iff.mpr hgo
      have inv := reachable_inv hr hg hp1
      by_cases hemp : (getAvailableLines s).isEmpty = true
      · rw [if_pos hemp]
        exact intVal_ne_bot _
      · rw [if_neg hemp]
        have hchild : ∀ l ∈ getAvailableLines s, ∀ s2,
            applyMove s (normalizeLine l) s.currentPlayer = some s2 →
            ∀ (a2 b2 : SearchValue) (mx2 : Bool), minimax ai d2 s2 a2 b2 mx2 ≠ ⊥ :=
          fun l hl s2 h2 a2 b2 mx2 => ih s2 (Reachable.step hr h2) a2 b2 mx2
        have hne : getAvailableLines s ≠ [] := by
          intro hc
          rw [hc] at hemp
          exact hemp rfl
        have hsucc : ∀ l ∈ getAvailableLines s,
            (applyMove s (normalizeLine l) s.currentPlayer).isSome = true := by
          intro l hl
          rw [inv_avail_norm inv hl]
          exact inv_avail_succeeds inv hgof hl
        by_cases hbr : (mx || decide (s.currentPlayer = ai)) = true
        · rw [if_pos hbr]
          exact maxLoop_ne_bot ai d2 s _ alpha beta ⊥ hchild (Or.inl ⟨hne, hsucc⟩)
        · rw [if_neg hbr]
          exact minLoop_ne_bot ai d2 s _ alpha beta ⊤ hchild (ne_of_gt bot_lt_top)

theorem find_congr_mem {α : Type} {p q : α → Bool} :
    ∀ {xs : List α}, (∀ x ∈ xs, p x = q x) → xs.find? p = xs.find? q := by
  intro xs
  induction xs with
  | nil => intro h; rfl
  | cons x rest ih =>
    intro h
    by_cases hp : p x = true
    · rw [List.find?_cons_of_pos _ hp,
        List.find?_cons_of_pos _ (by rw [← h x (List.mem_cons_self _ _)]; exact hp)]
    · rw [List.find?_cons_of_neg _ hp,
        List.find?_cons_of_neg _ (by rw [← h x (List.mem_cons_self _ _)]; exact hp),
        ih (fun z hz => h z (List.mem_cons_of_mem _ hz))]

theorem exists_list_max {α : Type} (f : α → SearchValue) :
    ∀ (xs : List α), xs ≠ [] → ∃ z ∈ xs, ∀ y ∈ xs, f y ≤ f z := by
  intro xs
  induction xs with
  | nil => intro h; exact absurd rfl h
  | cons x rest ih =>
    intro h
    by_cases hrest : rest = []
    · subst hrest
      refine ⟨x, List.mem_cons_self _ _, ?_⟩
      intro y hy
      rw [List.mem_singleton] at hy
      rw [hy]
    · obtain ⟨z, hz, hzmax⟩ := ih hrest
      by_cases hle : f x ≤ f z
      · refine ⟨z, List.mem_cons_of_mem _ hz, ?_⟩
        intro y hy
        rcases List.mem_cons.mp hy with rfl | hy2
        · exact hle
        · exact hzmax y hy2
      · refine ⟨x, List.mem_cons_self _ _, ?_⟩
        intro y hy
        rcases List.mem_cons.mp hy with rfl | hy2
        · exact le_refl _
        · exact le_trans (hzmax y hy2) (le_of_lt (not_le.mp hle))

/-- When every listed move succeeds, the hardAI root loop is the
abstract first-strict-improver loop over the child values. -/
theorem hardLoop_eq_selectLoop (ai maxDepth : Nat) (s : GameState) :
    ∀ (xs : List Line),
      (∀ l ∈ xs, (applyMove s (normalizeLine l) s.currentPlayer).isSome = true) →
      ∀ (acc : SearchValue) (best : Option Line),
      hardLoop ai maxDepth s xs acc best =
        selectLoop (childValue s ai (maxDepth - 1)) xs acc best := by
  intro xs
  induction xs with
  | nil => intro hsucc acc best; rfl
  | cons l rest ih =>
    intro hsucc acc best
    rw [hardLoop_cons]
    have hs := hsucc l (List.mem_cons_self _ _)
    obtain ⟨s2, hs2⟩ := Option.isSome_iff_exists.mp hs
    rw [hs2]
    dsimp only
    have hf : childValue s ai (maxDepth - 1) l = minimax ai (maxDepth - 1) s2 ⊥ ⊤ false := by
      unfold childValue
      rw [hs2]
    conv_rhs => unfold selectLoop
    rw [hf]
    by_cases hlt : acc < minimax ai (maxDepth - 1) s2 ⊥ ⊤ false
    · rw [if_pos hlt, if_pos hlt]
      exact ih (fun l2 hl2 => hsucc l2 (List.mem_cons_of_mem _ hl2)) _ _
    · rw [if_neg hlt, if_neg hlt]
      exact ih (fun l2 hl2 => hsucc l2 (List.mem_cons_of_mem _ hl2)) _ _

/-- The first-strict-improver loop returns the first element whose
value beats the accumulator and is maximal among the listed values, or
the incoming best when no element beats the accumulator. -/
theorem selectLoop_spec (f : Line → SearchValue) :
    ∀ (xs : List Line) (acc : SearchValue) (best : Option Line),
      selectLoop f xs acc best =
        match xs.find? (fun z => decide (acc < f z) && xs.all fun y => decide (f y ≤ f z)) with
        | some z => some z
        | none => best := by
  intro xs
  induction xs with
  | nil => intro acc best; rfl
  | cons x rest ih =>
    intro acc best
    conv_lhs => unfold selectLoop
    by_cases hlt : acc < f x
    · rw [if_pos hlt, ih]
      by_cases hall : rest.all (fun y => decide (f y ≤ f x)) = true
      · have hpx : (decide (acc < f x) && (x :: rest).all fun y => decide (f y ≤ f x)) = true := by
          rw [Bool.and_eq_true, List.all_cons, Bool.and_eq_true]
          exact ⟨decide_eq_true hlt, decide_eq_true (le_refl _), hall⟩
        rw [List.find?_cons, hpx]
        dsimp only
        have hnone : rest.find?
            (fun z => decide (f x < f z) && rest.all fun y => decide (f y ≤ f z)) = none := by
          rw [List.find?_eq_none]
          intro z hz hc
          rw [Bool.and_eq_true, decide_eq_true_eq] at hc
          have h2 : f z ≤ f x := of_decide_eq_true (List.all_eq_true.mp hall z hz)
          exact absurd hc.1 (not_lt.mpr h2)
        rw [hnone]
      · have hex : ∃ y0 ∈ rest, ¬ (f y0 ≤ f x) := by
          by_contra hc
          push_neg at hc
          apply hall
          rw [List.all_eq_true]
          intro z hz
          exact decide_eq_true (hc z hz)
        obtain ⟨y0, hy0, hy0gt⟩ := hex
        have hy0lt : f x < f y0 := not_le.mp hy0gt
        have hpx : (decide (acc < f x) && (x :: rest).all fun y => decide (f y ≤ f x)) = false := by
          rw [Bool.eq_false_iff]
          intro hc
          rw [Bool.and_eq_true, List.all_eq_true] at hc
          exact hy0gt (of_decide_eq_true (hc.2 y0 (List.mem_cons_of_mem _ hy0)))
        rw [List.find?_cons, hpx]
        dsimp only
        have hcong : ∀ z ∈ rest,
            (fun z => decide (f x < f z) && rest.all fun y => decide (f y ≤ f z)) z =
            (fun z => decide (acc < f z) && (x :: rest).all fun y => decide (f y ≤ f z)) z := by
          intro z hz
          dsimp only
          by_cases hrall : rest.all (fun y => decide (f y ≤ f z)) = true
          · have hy0z : f y0 ≤ f z := of_decide_eq_true (List.all_eq_true.mp hrall y0 hy0)
            have hxz : f x < f z := lt_of_lt_of_le hy0lt hy0z
            rw [List.all_cons, decide_eq_true hxz, decide_eq_true (lt_trans hlt hxz),
              decide_eq_true (le_of_lt hxz)]
            simp only [Bool.true_and]
          · have hrf : rest.all (fun y => decide (f y ≤ f z)) = false :=
              Bool.eq_false_iff.mpr hrall
            rw [List.all_cons, hrf, Bool.and_false, Bool.and_false, Bool.and_false]
        rw [find_congr_mem hcong]
        cases hq : rest.find?
            (fun z => decide (acc < f z) && (x :: rest).all fun y => decide (f y ≤ f z)) with
        | some z => rfl
        | none =>
          exfalso
          obtain ⟨z0, hz0, hz0max⟩ := exists_list_max f rest (List.ne_nil_of_mem hy0)
          have hxz0 : f x < f z0 := lt_of_lt_of_le hy0lt (hz0max y0 hy0)
          refine List.find?_eq_none.mp hq z0 hz0 ?_
          rw [Bool.and_eq_true, List.all_cons, Bool.and_eq_true, List.all_eq_true]
          refine ⟨decide_eq_true (lt_trans hlt hxz0), decide_eq_true (le_of_lt hxz0), ?_⟩
          intro y hy
          exact decide_eq_true (hz0max y hy)
    · rw [if_neg hlt, ih]
      have hxle : f x ≤ acc := not_lt.mp hlt
      have hpx : (decide (acc < f x) && (x :: rest).all fun y => decide (f y ≤ f x)) = false := by
        rw [Bool.eq_false_iff]
        intro hc
        rw [Bool.and_eq_true, decide_eq_true_eq] at hc
        exact absurd hc.1 (not_lt.mpr hxle)
      rw [List.find?_cons, hpx]
      dsimp only
      have hcong : ∀ z ∈ rest,
          (fun z => decide (acc < f z) && rest.all fun y => decide (f y ≤ f z)) z =
          (fun z => decide (acc < f z) && (x :: rest).all fun y => decide (f y ≤ f z)) z := by
        intro z hz
        dsimp only
        by_cases hz2 : acc < f z
        · rw [List.all_cons, decide_eq_true (le_of_lt (lt_of_le_of_lt hxle hz2)), Bool.true_and]
        · rw [decide_eq_false hz2, Bool.false_and, Bool.false_and]
      rw [find_congr_mem hcong]

/-- When no listed value is the -Infinity sentinel, the
first-strict-improver characterization starting from -Infinity is
exactly the spec's first-maximum rule. -/
theorem firstMaxBy_eq_select (f : Line → SearchValue) (xs : List Line)
    (hne : ∀ z ∈ xs, f z ≠ ⊥) :
    (match xs.find?
        (fun z => decide ((⊥ : SearchValue) < f z) && xs.all fun y => decide (f y ≤ f z)) with
     | some z => some z
     | none => (none : Option Line)) = firstMaxBy f xs := by
  unfold firstMaxBy
  have hcong : ∀ z ∈ xs,
      (fun z => decide ((⊥ : SearchValue) < f z) && xs.all fun y => decide (f y ≤ f z)) z =
      (fun z => xs.all fun y => decide (f y ≤ f z)) z := by
    intro z hz
    dsimp only
    rw [decide_eq_true (bot_lt_iff_ne_bot.mpr (hne z hz)), Bool.true_and]
  rw [find_congr_mem hcong]
  cases hq : xs.find? (fun z => xs.all fun y => decide (f y ≤ f z)) with
  | some z => rfl
  | none => rfl

/-- Reachability of the demo state with one remaining line. -/
theorem demoNearEnd_reachable : Reachable 3 2 demoNearEnd :=
  @playAll_reachable 3 2 (createInitialState 3 2) demoNearEnd ((genLines 3).take 11)
    Reachable.init (by decide)

/-- C7: the hard (minimax) strategy is deterministic — it is a pure
function of the state and the AI index, and on every reachable state of
a valid configuration it returns exactly the first move of the
getAvailableLines enumeration whose child minimax value is highest
(later moves never beat an equal earlier value, so ties break to the
first-discovered move and no randomness is involved). -/
theorem claim_C7_minimax_first_argmax {g : Int} {pc : Nat} (s : GameState) (ai : Nat)
    (hr : Reachable g pc s) (hg : isValidGridSize g = true)
    (hpc : isValidPlayerCount pc = true) :
    hardAI s ai =
      firstMaxBy
        (childValue s ai
          ((if (getAvailableLines s).length ≤ 12 then (getAvailableLines s).length else 6) - 1))
        (getAvailableLines s) := by
  have hg2 : 2 ≤ g := by have := of_decide_eq_true hg; omega
  have hp1 : 1 ≤ pc := by have := of_decide_eq_true hpc; omega
  have inv := reachable_inv hr hg2 hp1
  unfold hardAI
  by_cases hemp : (getAvailableLines s).isEmpty = true
  · rw [if_pos hemp]
    have hnil : getAvailableLines s = [] := List.isEmpty_iff.mp hemp
    unfold firstMaxBy
    rw [hnil]
    rfl
  · rw [if_neg hemp]
    dsimp only
    have hnil : getAvailableLines s ≠ [] := fun hc => hemp (by rw [hc]; rfl)
    have hgof : s.gameOver = false := by
      cases hq : s.gameOver with
      | false => rfl
      | true => exact absurd ((inv_gameOver_iff_avail inv hg2).mp hq) hnil
    have hsucc : ∀ l ∈ getAvailableLines s,
        (applyMove s (normalizeLine l) s.currentPlayer).isSome = true := by
      intro l hl
      rw [inv_avail_norm inv hl]
      exact inv_avail_succeeds inv hgof hl
    rw [hardLoop_eq_selectLoop _ _ _ _ hsucc, selectLoop_spec]
    refine firstMaxBy_eq_select _ _ ?_
    intro z hz
    obtain ⟨s2, hs2⟩ := Option.isSome_iff_exists.mp (hsucc z hz)
    unfold childValue
    rw [hs2]
    exact minimax_ne_bot hg2 hp1 ai _ s2 (Reachable.step hr hs2) ⊥ ⊤ false

theorem claim_C7_witness :
    hardAI demoNearEnd 0 =
      firstMaxBy
        (childValue demoNearEnd 0
          ((if (getAvailableLines demoNearEnd).length ≤ 12
            then (getAvailableLines demoNearEnd).length else 6) - 1))
        (getAvailableLines demoNearEnd) :=
  @claim_C7_minimax_first_argmax 3 2 demoNearEnd 0 demoNearEnd_reachable
    (by decide) (by decide)

theorem minimax_gameOver (ai : Nat) :
    ∀ (d : Nat) (s : GameState) (alpha beta : SearchValue) (mx : Bool),
      s.gameOver = true → minimax ai d s alpha beta mx = intVal (evalState s ai) := by
  intro d s alpha beta mx hgo
  cases d with
  | zero => rw [minimax_zero]
  | succ d2 => rw [minimax_succ, if_pos hgo]

/-- The maximizing loop only consults the depth through the child
minimax values. -/
theorem maxLoop_congr (ai d1 d2 : Nat) (s : GameState) :
    ∀ (moves : List Line),
      (∀ l ∈ moves, ∀ s2, applyMove s (normalizeLine l) s.currentPlayer = some s2 →
        ∀ (a2 b2 : SearchValue) (mx2 : Bool),
          minimax ai d1 s2 a2 b2 mx2 = minimax ai d2 s2 a2 b2 mx2) →
      ∀ (alpha beta acc : SearchValue),
        maxLoop ai d1 s moves alpha beta acc = maxLoop ai d2 s moves alpha beta acc := by
  intro moves
  induction moves with
  | nil => intro h alpha beta acc; rw [maxLoop_nil, maxLoop_nil]
  | cons l rest ihm =>
    intro h alpha beta acc
    rw [maxLoop_cons, maxLoop_cons]
    cases happ : applyMove s (normalizeLine l) s.currentPlayer with
    | none =>
      dsimp only
      exact ihm (fun l2 hl2 => h l2 (List.mem_cons_of_mem _ hl2)) alpha beta acc
    | some s2 =>
      dsimp only
      rw [h l (List.mem_cons_self _ _) s2 happ alpha beta (decide (s2.currentPlayer = ai))]
      by_cases hcut : beta ≤ max alpha (minimax ai d2 s2 alpha beta (decide (s2.currentPlayer = ai)))
      · rw [if_pos hcut, if_pos hcut]
      · rw [if_neg hcut, if_neg hcut]
        exact ihm (fun l2 hl2 => h l2 (List.mem_cons_of_mem _ hl2)) _ beta _

/-- The minimizing loop only consults the depth through the child
minimax values. -/
theorem minLoop_congr (ai d1 d2 : Nat) (s : GameState) :
    ∀ (moves : List Line),
      (∀ l ∈ moves, ∀ s2, applyMove s (normalizeLine l) s.currentPlayer = some s2 →
        ∀ (a2 b2 : SearchValue) (mx2 : Bool),
          minimax ai d1 s2 a2 b2 mx2 = minimax ai d2 s2 a2 b2 mx2) →
      ∀ (alpha beta acc : SearchValue),
        minLoop ai d1 s moves alpha beta acc = minLoop ai d2 s moves alpha beta acc := by
  intro moves
  induction moves with
  | nil => intro h alpha beta acc; rw [minLoop_nil, minLoop_nil]
  | cons l rest ihm =>
    intro h alpha beta acc
    rw [minLoop_cons, minLoop_cons]
    cases happ : applyMove s (normalizeLine l) s.currentPlayer with
    | none =>
      dsimp only
      exact ihm (fun l2 hl2 => h l2 (List.mem_cons_of_mem _ hl2)) alpha beta acc
    | some s2 =>
      dsimp only
      rw [h l (List.mem_cons_self _ _) s2 happ alpha beta (decide (s2.currentPlayer = ai))]
      by_cases hcut : min beta (minimax ai d2 s2 alpha beta (decide (s2.currentPlayer = ai))) ≤ alpha
      · rw [if_pos hcut, if_pos hcut]
      · rw [if_neg hcut, if_neg hcut]
        exact ihm (fun l2 hl2 => h l2 (List.mem_cons_of_mem _ hl2)) alpha _ _

/-- Once the depth bound is at least the number of remaining moves, the
bound is not binding: searching any deeper gives the same value, because
each ply removes exactly one available move, so the game ends before the
depth runs out and every evaluated leaf is terminal. -/
theorem minimax_depth_irrelevant {g : Int} {pc : Nat} (hg : 2 ≤ g) (hp1 : 1 ≤ pc) (ai : Nat) :
    ∀ (n : Nat) (s : GameState), Reachable g pc s → (getAvailableLines s).length = n →
      ∀ (d d' : Nat), n ≤ d → n ≤ d' → ∀ (alpha beta : SearchValue) (mx : Bool),
        minimax ai d s alpha beta mx = minimax ai d' s alpha beta mx := by
  intro n
  induction n using Nat.strong_induction_on with
  | _ n ih =>
    intro s hr hn d d' hd hd' alpha beta mx
    have inv := reachable_inv hr hg hp1
    by_cases hgo : s.gameOver = true
    · rw [minimax_gameOver ai d s alpha beta mx hgo, minimax_gameOver ai d' s alpha beta mx hgo]
    · have hnil : getAvailableLines s ≠ [] := by
        intro hc
        exact hgo ((inv_gameOver_iff_avail inv hg).mpr hc)
      have hpos : 0 < n := by
        rw [← hn]
        exact List.length_pos.mpr hnil
      cases d with
      | zero => omega
      | succ d2 =>
        cases d' with
        | zero => omega
        | succ d2' =>
          rw [minimax_succ, minimax_succ, if_neg hgo, if_neg hgo]
          have hempn : ¬ ((getAvailableLines s).isEmpty = true) := by
            intro hq
            exact hnil (List.isEmpty_iff.mp hq)
          rw [if_neg hempn, if_neg hempn]
          have hchild : ∀ l ∈ getAvailableLines s, ∀ s2,
              applyMove s (normalizeLine l) s.currentPlayer = some s2 →
              ∀ (a2 b2 : SearchValue) (mx2 : Bool),
                minimax ai d2 s2 a2 b2 mx2 = minimax ai d2' s2 a2 b2 mx2 := by
            intro l hl s2 h2 a2 b2 mx2
            have hnorm := inv_avail_norm inv hl
            rw [hnorm] at h2
            have hlen := avail_after_move inv hl h2
            exact ih (n - 1) (by omega) s2 (Reachable.step hr h2) (by omega) d2 d2'
              (by omega) (by omega) a2 b2 mx2
          by_cases hbr : (mx || decide (s.currentPlayer = ai)) = true
          · rw [if_pos hbr, if_pos hbr]
            exact maxLoop_congr ai d2 d2' s _ hchild alpha beta ⊥
          · rw [if_neg hbr, if_neg hbr]
            exact minLoop_congr ai d2 d2' s _ hchild alpha beta ⊤

/-- C8: the hard strategy's depth policy and termination structure.
First, hardAI searches with depth bound equal to the number of remaining
moves when that number is at most 12 and with depth 6 otherwise (the
equation below is the source's own branch, stated over the embedded
total function — totality of the embedded minimax is Lean's guarantee
that the recursion terminates).  Second, each ply removes exactly one
available move.  Third, in the exhaustive regime the bound is not
binding: whenever the depth is at least the number of remaining moves —
as with the ≤ 12 branch's bound — the search value agrees with every
deeper search, so every evaluated leaf is a terminal state. -/
theorem claim_C8_depth_policy {g : Int} {pc : Nat} (s : GameState) (ai : Nat)
    (hr : Reachable g pc s) (hg : isValidGridSize g = true)
    (hpc : isValidPlayerCount pc = true) :
    (hardAI s ai =
      (if (getAvailableLines s).isEmpty then none
       else hardLoop ai
         (if (getAvailableLines s).length ≤ 12 then (getAvailableLines s).length else 6)
         s (getAvailableLines s) ⊥ none)) ∧
    (∀ l ∈ getAvailableLines s, ∀ s2,
        applyMove s (normalizeLine l) s.currentPlayer = some s2 →
        (getAvailableLines s2).length + 1 = (getAvailableLines s).length) ∧
    (∀ d d' : Nat, (getAvailableLines s).length ≤ d → (getAvailableLines s).length ≤ d' →
      ∀ (alpha beta : SearchValue) (mx : Bool),
        minimax ai d s alpha beta mx = minimax ai d' s alpha beta mx) := by
  have hg2 : 2 ≤ g := by have := of_decide_eq_true hg; omega
  have hp1 : 1 ≤ pc := by have := of_decide_eq_true hpc; omega
  have inv := reachable_inv hr hg2 hp1
  refine ⟨rfl, ?_, ?_⟩
  · intro l hl s2 h2
    have hnorm := inv_avail_norm inv hl
    rw [hnorm] at h2
    exact avail_after_move inv hl h2
  · intro d d' hd hd' alpha beta mx
    exact minimax_depth_irrelevant hg2 hp1 ai (getAvailableLines s).length s hr rfl d d'
      hd hd' alpha beta mx

theorem claim_C8_witness :
    (getAvailableLines demoNearEnd).length ≤ 1 ∧
    minimax 0 1 demoNearEnd ⊥ ⊤ false = minimax 0 12 demoNearEnd ⊥ ⊤ false :=
  ⟨by decide,
    (claim_C8_depth_policy demoNearEnd 0 demoNearEnd_reachable (by decide) (by decide)).2.2
      1 12 (by decide) (by decide) ⊥ ⊤ false⟩

end DotsBoxes

